import Mathlib

/-!
DequeToolkit: a block-mapped double-ended queue.

A shallow embedding of `src/deque.cpp` (class `Deque`) and of the test driver of
`src/main.cpp`, followed by the properties proved about them.

Modelling conventions.

* The heap object `int** blockmap` is a list of blocks, each block a list of
  `Int`.  The extent of every allocation is the length of the list, so an
  access outside an allocation is visible: it yields `Error.fault`.
* `size_t` fields are natural numbers.  The number of slots is bounded by the
  address space, far below `2 ^ 63`, so no addition on them wraps; the
  subtractions (`capacity - 1`, `front_index - 1`, `--current_size`) are
  modelled with the modular `size_sub`, so an underflow would be visible.
* A member function is a function from the object state to a pair: what the
  call returns or throws, and the object state it leaves behind.
* `new int[n]` gives a block of `n` slots of indeterminate content, modelled as
  zeros; no property below depends on the content of a slot never written.
-/

namespace DequeToolkit

/-- What a call can raise: the two `out_of_range` exceptions of the source, and
`fault` for undefined behaviour (division by zero, access outside a block). -/
inductive Error where
  | underflow
  | outOfBounds
  | fault
  deriving DecidableEq

/-- The private members of `class Deque` (`deque.h`). -/
structure Deque where
  blockmap : List (List Int)
  block_size : Nat
  num_blocks : Nat
  capacity : Nat
  current_size : Nat
  front_index : Nat
  back_index : Nat
  deriving DecidableEq

/-- Subtraction on `size_t`: wraps modulo `2 ^ 64` when the result is negative. -/
def size_sub (a b : Nat) : Nat :=
  if b ≤ a then a - b else a + 2 ^ 64 - b

/-- Remainder on `size_t`: undefined behaviour when the divisor is zero. -/
def size_mod (a b : Nat) : Except Error Nat :=
  if b = 0 then .error .fault else .ok (a % b)

/-- The rvalue `m[block][offset]`: `none` outside the allocations. -/
def load (m : List (List Int)) (block offset : Nat) : Option Int :=
  match m[block]? with
  | none => none
  | some blk => blk[offset]?

/-- The assignment `m[block][offset] = v`: `none` outside the allocations. -/
def store (m : List (List Int)) (block offset : Nat) (v : Int) : Option (List (List Int)) :=
  match m[block]? with
  | none => none
  | some blk => if offset < blk.length then some (m.set block (blk.set offset v)) else none

/-- The rvalue `m[s / block_size][s % block_size]`. -/
def read_slot (m : List (List Int)) (block_size s : Nat) : Except Error Int :=
  if block_size = 0 then .error .fault
  else match load m (s / block_size) (s % block_size) with
    | none => .error .fault
    | some v => .ok v

/-- The assignment `m[s / block_size][s % block_size] = v`. -/
def write_slot (m : List (List Int)) (block_size s : Nat) (v : Int) :
    Except Error (List (List Int)) :=
  if block_size = 0 then .error .fault
  else match store m (s / block_size) (s % block_size) v with
    | none => .error .fault
    | some m' => .ok m'

namespace Deque

/-- The constructor `Deque::Deque()`. -/
def new : Deque :=
  { blockmap := [List.replicate 4 0]
    block_size := 4
    num_blocks := 1
    capacity := 4
    current_size := 0
    front_index := 0
    back_index := 0 }

/-- The copy loop of `Deque::expand_blockmap` (deque.cpp lines 55-59), with
`n` iterations left to run, loop counter `i` and cursor `current`. -/
def remap (blockmap : List (List Int)) (block_size capacity : Nat) :
    Nat → Nat → Nat → List (List Int) → Except Error (List (List Int))
  | 0, _, _, new_map => .ok new_map
  | n + 1, i, current, new_map =>
    match read_slot blockmap block_size current with
    | .error e => .error e
    | .ok v =>
      match write_slot new_map block_size i v with
      | .error e => .error e
      | .ok new_map' =>
        match size_mod (current + 1) capacity with
        | .error e => .error e
        | .ok current' => remap blockmap block_size capacity n (i + 1) current' new_map'

/-- The private member `Deque::expand_blockmap`. -/
def expand_blockmap (d : Deque) : Except Error Unit × Deque :=
  let new_blocks := d.num_blocks + 1
  let new_map := List.replicate new_blocks (List.replicate d.block_size (0 : Int))
  match remap d.blockmap d.block_size d.capacity d.current_size 0 d.front_index new_map with
  | .error e => (.error e, d)
  | .ok new_map' =>
    (.ok (), { d with
      blockmap := new_map'
      num_blocks := new_blocks
      capacity := d.capacity + d.block_size
      front_index := 0
      back_index := d.current_size })

/-- The member `Deque::empty`. -/
def empty (d : Deque) : Bool := d.current_size == 0

/-- The member `Deque::size`. -/
def size (d : Deque) : Nat := d.current_size

/-- The growth step shared by both pushes: `if (current_size == capacity) expand_blockmap();`. -/
def grow_if_full (d : Deque) : Except Error Unit × Deque :=
  if d.current_size = d.capacity then expand_blockmap d else (.ok (), d)

/-- The member `Deque::push_front`. -/
def push_front (d : Deque) (value : Int) : Except Error Unit × Deque :=
  match grow_if_full d with
  | (.error e, d1) => (.error e, d1)
  | (.ok (), d1) =>
    let d2 := { d1 with
      front_index := if d1.front_index = 0 then size_sub d1.capacity 1
                     else size_sub d1.front_index 1 }
    match write_slot d2.blockmap d2.block_size d2.front_index value with
    | .error e => (.error e, d2)
    | .ok m => (.ok (), { d2 with blockmap := m, current_size := d2.current_size + 1 })

/-- The member `Deque::push_back`. -/
def push_back (d : Deque) (value : Int) : Except Error Unit × Deque :=
  match grow_if_full d with
  | (.error e, d1) => (.error e, d1)
  | (.ok (), d1) =>
    match write_slot d1.blockmap d1.block_size d1.back_index value with
    | .error e => (.error e, d1)
    | .ok m =>
      let d2 := { d1 with blockmap := m }
      match size_mod (d2.back_index + 1) d2.capacity with
      | .error e => (.error e, d2)
      | .ok b => (.ok (), { d2 with back_index := b, current_size := d2.current_size + 1 })

/-- The member `Deque::pop_front`. -/
def pop_front (d : Deque) : Except Error Unit × Deque :=
  if d.empty then (.error .underflow, d)
  else
    match size_mod (d.front_index + 1) d.capacity with
    | .error e => (.error e, d)
    | .ok f => (.ok (), { d with front_index := f, current_size := size_sub d.current_size 1 })

/-- The member `Deque::pop_back`. -/
def pop_back (d : Deque) : Except Error Unit × Deque :=
  if d.empty then (.error .underflow, d)
  else
    (.ok (), { d with
      back_index := if d.back_index = 0 then size_sub d.capacity 1
                    else size_sub d.back_index 1
      current_size := size_sub d.current_size 1 })

/-- The const member `Deque::front`. -/
def front (d : Deque) : Except Error Int × Deque :=
  if d.empty then (.error .underflow, d)
  else (read_slot d.blockmap d.block_size d.front_index, d)

/-- The const member `Deque::back`. -/
def back (d : Deque) : Except Error Int × Deque :=
  if d.empty then (.error .underflow, d)
  else
    let last_index := if d.back_index = 0 then size_sub d.capacity 1
                      else size_sub d.back_index 1
    (read_slot d.blockmap d.block_size last_index, d)

/-- The member `Deque::operator[]` up to the reference it returns: the logical
slot `actual_index` whose storage `blockmap[actual_index / block_size]
[actual_index % block_size]` the reference designates. Forming the reference
needs the storage to exist. -/
def subscript (d : Deque) (index : Nat) : Except Error Nat × Deque :=
  if index ≥ d.current_size then (.error .outOfBounds, d)
  else
    match size_mod (d.front_index + index) d.capacity with
    | .error e => (.error e, d)
    | .ok actual_index =>
      match read_slot d.blockmap d.block_size actual_index with
      | .error e => (.error e, d)
      | .ok _ => (.ok actual_index, d)

/-- Reading through `operator[]`: the value of the expression `d[index]`. -/
def subscript_read (d : Deque) (index : Nat) : Except Error Int × Deque :=
  match subscript d index with
  | (.error e, d1) => (.error e, d1)
  | (.ok actual_index, d1) => (read_slot d1.blockmap d1.block_size actual_index, d1)

/-- Writing through `operator[]`: the statement `d[index] = value`. -/
def subscript_write (d : Deque) (index : Nat) (value : Int) : Except Error Unit × Deque :=
  match subscript d index with
  | (.error e, d1) => (.error e, d1)
  | (.ok actual_index, d1) =>
    match write_slot d1.blockmap d1.block_size actual_index value with
    | .error e => (.error e, d1)
    | .ok m => (.ok (), { d1 with blockmap := m })

end Deque

/-- The four operations the stress test of `main.cpp` draws from. -/
inductive Operation where
  | push_front (value : Int)
  | push_back (value : Int)
  | pop_front
  | pop_back
  deriving DecidableEq

/-- One call of `perform_random_operation` (main.cpp lines 27-59), the drawn
operation and value being given: the deque and the reference vector are driven
together, a pop being skipped when the deque is empty. -/
def perform_operation (s : Deque × List Int) (op : Operation) : Deque × List Int :=
  match op with
  | .push_front value => ((s.1.push_front value).2, value :: s.2)
  | .push_back value => ((s.1.push_back value).2, s.2 ++ [value])
  | .pop_front => if !s.1.empty then ((s.1.pop_front).2, s.2.tail) else s
  | .pop_back => if !s.1.empty then ((s.1.pop_back).2, s.2.dropLast) else s

/-- The loop of `stress_test` (main.cpp lines 71-79) for a given operation log. -/
def run_operations (ops : List Operation) : Deque × List Int :=
  ops.foldl perform_operation (Deque.new, [])

/-- The states a program can bring a `Deque` into through its public members. -/
inductive Reachable : Deque → Prop where
  | new : Reachable Deque.new
  | push_front {d : Deque} (v : Int) : Reachable d → Reachable (d.push_front v).2
  | push_back {d : Deque} (v : Int) : Reachable d → Reachable (d.push_back v).2
  | pop_front {d : Deque} : Reachable d → Reachable d.pop_front.2
  | pop_back {d : Deque} : Reachable d → Reachable d.pop_back.2
  | subscript_write {d : Deque} (i : Nat) (v : Int) :
      Reachable d → Reachable (d.subscript_write i v).2

/-! ## Definitions used to state and prove the properties -/

/-- Shape of a blockmap: `nb` blocks of `bs` slots each. -/
def Shaped (m : List (List Int)) (nb bs : Nat) : Prop :=
  m.length = nb ∧ ∀ blk ∈ m, blk.length = bs

/-- The representation invariant of a deque, together with the sequence it holds. -/
structure Holds (d : Deque) (xs : List Int) : Prop where
  block_size_eq : d.block_size = 4
  num_blocks_pos : 1 ≤ d.num_blocks
  capacity_eq : d.capacity = d.num_blocks * d.block_size
  shaped : Shaped d.blockmap d.num_blocks d.block_size
  size_eq : d.current_size = xs.length
  size_le : d.current_size ≤ d.capacity
  front_lt : d.front_index < d.capacity
  back_eq : d.back_index = (d.front_index + d.current_size) % d.capacity
  elems : ∀ i x, xs[i]? = some x →
    read_slot d.blockmap d.block_size ((d.front_index + i) % d.capacity) = .ok x

/-- What indexed access into the sequence `xs` gives: the `i`-th element, or the
out-of-bounds error past its end. -/
def seq_at (xs : List Int) (i : Nat) : Except Error Int :=
  match xs[i]? with
  | some x => .ok x
  | none => .error .outOfBounds

/-- What reading an end of the sequence `xs` at position `i` gives: the element
there, or the underflow error when there is none. -/
def seq_end (xs : List Int) (i : Nat) : Except Error Int :=
  match xs[i]? with
  | some x => .ok x
  | none => .error .underflow

/-- A full deque whose live region wraps: slots 2, 3, 0, 1 hold 2, 1, 3, 4. -/
def sample_full : Deque :=
  ((((Deque.new.push_front 1).2.push_front 2).2.push_back 3).2.push_back 4).2

/-- Whether a call raised an error. -/
def failed {α : Type} : Except Error α → Bool
  | .error _ => true
  | .ok _ => false

/-- The deque of the basic scenario: push_back 1, push_back 2, push_front 0. -/
def sample_three : Deque :=
  (((Deque.new.push_back 1).2.push_back 2).2.push_front 0).2

/-- A deque whose live region wraps and whose cursors are away from slot 0:
push_back 1, 2, 3, then pop_front, then push_back 4, 5. -/
def sample_wrapped : Deque :=
  ((((((Deque.new.push_back 1).2.push_back 2).2.push_back 3).2.pop_front).2.push_back 4).2.push_back
    5).2

/-- The push loop of `test_large_data_handling` (main.cpp lines 136-139), with
`n` iterations left and loop counter `i`. -/
def push_loop : Nat → Nat → Deque → Deque
  | 0, _, d => d
  | n + 1, i, d => push_loop n (i + 1) (d.push_back (i : Int)).2

/-- The drain loop of `test_large_data_handling` (main.cpp lines 143-147), with
`n` iterations left, that is loop counter `n - 1`: it records, per iteration,
what `back()` returned and what `pop_back()` returned, and gives the final state. -/
def drain_loop : Nat → Deque → List (Except Error Int × Except Error Unit) × Deque
  | 0, d => ([], d)
  | n + 1, d =>
    let b := d.back.1
    let p := d.pop_back
    let rest := drain_loop n p.2
    ((b, p.1) :: rest.1, rest.2)

/-- What the drain loop must observe from loop counter `n - 1` down to 0: `back()`
returns the counter and `pop_back()` succeeds. -/
def drain_expected : Nat → List (Except Error Int × Except Error Unit)
  | 0 => []
  | n + 1 => (.ok (n : Int), .ok ()) :: drain_expected n

/-- The sequence 0, 1, ..., n - 1 as pushed by the fill loop. -/
def counting : Nat → List Int
  | 0 => []
  | n + 1 => counting n ++ [(n : Int)]

/-- Whether an operation of the log is a push. -/
def is_push : Operation → Bool
  | .push_front _ => true
  | .push_back _ => true
  | .pop_front => false
  | .pop_back => false

/-- The deque of the forced-growth scenario: push_back 10, 20, 30, 40, 50. -/
def sample_growth : Deque :=
  (run_operations [.push_back 10, .push_back 20, .push_back 30, .push_back 40,
    .push_back 50]).1

/-- How the block count and the capacity follow the size while only pushes happen. -/
def Cadence (d : Deque) : Prop :=
  d.num_blocks = max 1 ((d.current_size + 3) / 4) ∧ d.capacity = 4 * d.num_blocks

/-- The structural invariant of the members other than the blockmap. -/
def Structural (d : Deque) : Prop :=
  d.block_size = 4 ∧ 1 ≤ d.num_blocks ∧ d.capacity = d.num_blocks * d.block_size ∧
    d.capacity ≠ 0 ∧ d.current_size ≤ d.capacity ∧ d.front_index < d.capacity ∧
    d.back_index < d.capacity

/-- One call of a public member that can change the state. -/
inductive Step : Deque → Deque → Prop where
  | push_front (d : Deque) (v : Int) : Step d (d.push_front v).2
  | push_back (d : Deque) (v : Int) : Step d (d.push_back v).2
  | pop_front (d : Deque) : Step d d.pop_front.2
  | pop_back (d : Deque) : Step d d.pop_back.2
  | subscript_write (d : Deque) (i : Nat) (v : Int) : Step d (d.subscript_write i v).2

/-- Slot `s` lies inside a blockmap of `nb` blocks of `bs` slots: its block index
and its offset are in range. -/
def in_block (nb bs s : Nat) : Prop := s / bs < nb ∧ s % bs < bs

/-! ## Arithmetic and storage lemmas, the invariant, and the properties -/

theorem mod_wrap (a c : Nat) (h : a < 2 * c) :
    (a < c ∧ a % c = a) ∨ (c ≤ a ∧ a % c = a - c) := by
  rcases Nat.lt_or_ge a c with h1 | h1
  · exact Or.inl ⟨h1, Nat.mod_eq_of_lt h1⟩
  · refine Or.inr ⟨h1, ?_⟩
    rw [Nat.mod_eq_sub_mod h1, Nat.mod_eq_of_lt (by omega)]

theorem slot_coords {bs nb s : Nat} (hbs : 0 < bs) (hs : s < nb * bs) :
    s / bs < nb ∧ s % bs < bs :=
  ⟨(Nat.div_lt_iff_lt_mul hbs).2 hs, Nat.mod_lt _ hbs⟩

theorem slot_coords_inj {bs s t : Nat} (h1 : s / bs = t / bs) (h2 : s % bs = t % bs) :
    s = t := by
  rw [← Nat.div_add_mod s bs, ← Nat.div_add_mod t bs, h1, h2]

theorem load_set (m : List (List Int)) (b o : Nat) (v : Int) (blk : List Int)
    (hb : m[b]? = some blk) (ho : o < blk.length) (b' o' : Nat) :
    load (m.set b (blk.set o v)) b' o' =
      if b' = b ∧ o' = o then some v else load m b' o' := by
  have hlt : b < m.length := by
    rcases List.getElem?_eq_some.1 hb with ⟨h, _⟩
    exact h
  unfold load
  by_cases hbb : b' = b
  · subst hbb
    rw [List.getElem?_set_self hlt]
    simp only [true_and, hb]
    by_cases hoo : o' = o
    · subst hoo
      simp [List.getElem?_set_self ho]
    · simp [hoo, List.getElem?_set_ne (Ne.symm hoo)]
  · rw [List.getElem?_set_ne (Ne.symm hbb)]
    simp [hbb]

theorem Shaped.set {m : List (List Int)} {nb bs : Nat} (h : Shaped m nb bs)
    (b o : Nat) (v : Int) (blk : List Int) (hb : m[b]? = some blk) :
    Shaped (m.set b (blk.set o v)) nb bs := by
  refine ⟨by simpa using h.1, ?_⟩
  intro x hx
  rcases List.mem_or_eq_of_mem_set hx with hx | hx
  · exact h.2 x hx
  · subst hx
    have : blk ∈ m := List.getElem?_mem hb
    simpa using h.2 blk this

theorem Shaped.read_slot_ok {m : List (List Int)} {nb bs : Nat} (h : Shaped m nb bs)
    (hbs : 0 < bs) {s : Nat} (hs : s < nb * bs) : ∃ x, read_slot m bs s = .ok x := by
  obtain ⟨h1, h2⟩ := slot_coords hbs hs
  have hb : s / bs < m.length := by rw [h.1]; exact h1
  have hmem : m[s / bs] ∈ m := List.getElem_mem _
  have hl : s % bs < (m[s / bs]).length := by rw [h.2 _ hmem]; exact h2
  refine ⟨(m[s / bs])[s % bs], ?_⟩
  simp [read_slot, load, Nat.pos_iff_ne_zero.1 hbs, List.getElem?_eq_getElem hb,
    List.getElem?_eq_getElem hl]

theorem Shaped.write_slot_ok {m : List (List Int)} {nb bs : Nat} (h : Shaped m nb bs)
    (hbs : 0 < bs) {s : Nat} (hs : s < nb * bs) (v : Int) :
    ∃ m', write_slot m bs s v = .ok m' ∧ Shaped m' nb bs ∧ read_slot m' bs s = .ok v ∧
      ∀ t, t ≠ s → read_slot m' bs t = read_slot m bs t := by
  obtain ⟨h1, h2⟩ := slot_coords hbs hs
  have hb : s / bs < m.length := by rw [h.1]; exact h1
  have hmem : m[s / bs] ∈ m := List.getElem_mem _
  have hl : s % bs < (m[s / bs]).length := by rw [h.2 _ hmem]; exact h2
  have hget : m[s / bs]? = some m[s / bs] := List.getElem?_eq_getElem hb
  have hbs0 : bs ≠ 0 := Nat.pos_iff_ne_zero.1 hbs
  refine ⟨m.set (s / bs) ((m[s / bs]).set (s % bs) v), ?_, h.set _ _ _ _ hget, ?_, ?_⟩
  · simp [write_slot, store, hbs0, hget, hl]
  · simp [read_slot, hbs0, load_set m _ _ v _ hget hl]
  · intro t ht
    have hne : ¬ (t / bs = s / bs ∧ t % bs = s % bs) := fun hc => ht (slot_coords_inj hc.1 hc.2)
    simp [read_slot, hbs0, load_set m _ _ v _ hget hl, hne]

theorem Holds.capacity_pos {d : Deque} {xs : List Int} (h : Holds d xs) : 4 ≤ d.capacity := by
  have h1 := h.capacity_eq
  have h2 := h.block_size_eq
  have h3 := h.num_blocks_pos
  rw [h2] at h1
  omega

theorem Holds.new : Holds Deque.new [] where
  block_size_eq := rfl
  num_blocks_pos := Nat.le_refl 1
  capacity_eq := rfl
  shaped := ⟨rfl, by simp [Deque.new]⟩
  size_eq := rfl
  size_le := by simp [Deque.new]
  front_lt := by simp [Deque.new]
  back_eq := rfl
  elems := by simp

theorem shaped_replicate (nb bs : Nat) :
    Shaped (List.replicate nb (List.replicate bs (0 : Int))) nb bs := by
  refine ⟨by simp, ?_⟩
  intro blk hblk
  rw [List.eq_of_mem_replicate hblk]
  simp

theorem remap_spec {m : List (List Int)} {nb bs cap : Nat} (hm : Shaped m nb bs)
    (hbs : 0 < bs) (hcap : cap = nb * bs) {nb' : Nat} :
    ∀ (n i current : Nat) (nm : List (List Int)), Shaped nm nb' bs → i + n ≤ nb' * bs →
      current < cap →
      ∃ nm', Deque.remap m bs cap n i current nm = .ok nm' ∧ Shaped nm' nb' bs ∧
        (∀ t, t < i ∨ i + n ≤ t → read_slot nm' bs t = read_slot nm bs t) ∧
        (∀ k, k < n → read_slot nm' bs (i + k) = read_slot m bs ((current + k) % cap)) := by
  intro n
  induction n with
  | zero =>
    intro i current nm hnm _ _
    exact ⟨nm, rfl, hnm, fun _ _ => rfl, fun k hk => absurd hk (Nat.not_lt_zero k)⟩
  | succ n ih =>
    intro i current nm hnm hin hcur
    obtain ⟨x, hx⟩ := hm.read_slot_ok hbs (hcap ▸ hcur)
    obtain ⟨nm1, hw, hnm1, hself, hother⟩ := hnm.write_slot_ok hbs (s := i) (by omega) x
    have hcap0 : cap ≠ 0 := by omega
    have hnext : (current + 1) % cap < cap := Nat.mod_lt _ (by omega)
    obtain ⟨nm', hr, hnm', hframe, hcopy⟩ := ih (i + 1) ((current + 1) % cap) nm1 hnm1
      (by omega) hnext
    refine ⟨nm', ?_, hnm', ?_, ?_⟩
    · simp [Deque.remap, hx, hw, size_mod, hcap0, hr]
    · intro t ht
      rw [hframe t (by omega), hother t (by omega)]
    · intro k hk
      cases k with
      | zero =>
        rw [Nat.add_zero, Nat.add_zero, hframe i (by omega), hself, Nat.mod_eq_of_lt hcur, hx]
      | succ k =>
        have h1 := hcopy k (by omega)
        have e1 : i + (k + 1) = i + 1 + k := by omega
        have e2 : ((current + 1) % cap + k) % cap = (current + (k + 1)) % cap := by
          rw [Nat.mod_add_mod]
          congr 1
          omega
        rw [e1, h1, e2]

/-- What `expand_blockmap` does to a full deque that satisfies the invariant. -/
theorem Holds.expand {d : Deque} {xs : List Int} (h : Holds d xs)
    (hfull : d.current_size = d.capacity) :
    d.expand_blockmap.1 = .ok () ∧ Holds d.expand_blockmap.2 xs ∧
      d.expand_blockmap.2.num_blocks = d.num_blocks + 1 ∧
      d.expand_blockmap.2.capacity = d.capacity + d.block_size ∧
      d.expand_blockmap.2.block_size = d.block_size ∧
      d.expand_blockmap.2.current_size = d.current_size ∧
      d.expand_blockmap.2.front_index = 0 ∧
      d.expand_blockmap.2.back_index = d.current_size := by
  have hbs : 0 < d.block_size := by rw [h.block_size_eq]; decide
  have hcap := h.capacity_pos
  obtain ⟨nm', hr, hnm', _, hcopy⟩ := remap_spec h.shaped hbs h.capacity_eq
    d.current_size 0 d.front_index _ (shaped_replicate (d.num_blocks + 1) d.block_size)
    (by rw [hfull, h.capacity_eq, Nat.add_mul]; omega) h.front_lt
  have hbs4 := h.block_size_eq
  have hexp : d.expand_blockmap = (.ok (), { d with
      blockmap := nm'
      num_blocks := d.num_blocks + 1
      capacity := d.capacity + d.block_size
      front_index := 0
      back_index := d.current_size }) := by
    simp only [Deque.expand_blockmap, hr]
  rw [hexp]
  refine ⟨rfl, ?_, rfl, rfl, rfl, rfl, rfl, rfl⟩
  refine
    { block_size_eq := h.block_size_eq
      num_blocks_pos := by show 1 ≤ d.num_blocks + 1; omega
      capacity_eq := by
        show d.capacity + d.block_size = (d.num_blocks + 1) * d.block_size
        rw [h.capacity_eq, Nat.add_mul, Nat.one_mul]
      shaped := hnm'
      size_eq := h.size_eq
      size_le := by show d.current_size ≤ d.capacity + d.block_size; omega
      front_lt := by show 0 < d.capacity + d.block_size; omega
      back_eq := by
        show d.current_size = (0 + d.current_size) % (d.capacity + d.block_size)
        rw [Nat.zero_add, Nat.mod_eq_of_lt (by omega)]
      elems := ?_ }
  intro i x hix
  have hi : i < d.current_size := by
    rw [h.size_eq]
    exact (List.getElem?_eq_some.1 hix).1
  show read_slot nm' d.block_size ((0 + i) % (d.capacity + d.block_size)) = .ok x
  rw [Nat.zero_add, Nat.mod_eq_of_lt (by omega)]
  have := hcopy i hi
  rw [Nat.zero_add] at this
  rw [this]
  exact h.elems i x hix

theorem size_sub_of_le {a b : Nat} (h : b ≤ a) : size_sub a b = a - b := by
  simp [size_sub, h]

theorem size_mod_of_pos {a b : Nat} (h : 0 < b) : size_mod a b = .ok (a % b) := by
  simp [size_mod, Nat.pos_iff_ne_zero.1 h]

/-- The cursor one step before `f` on a ring of `c` slots, as both the source and
the model compute it. -/
theorem step_back_eq {c f : Nat} (hc : 0 < c) :
    (if f = 0 then size_sub c 1 else size_sub f 1) = if f = 0 then c - 1 else f - 1 := by
  by_cases hf : f = 0
  · simp [hf, size_sub_of_le (show 1 ≤ c from hc)]
  · simp [hf, size_sub_of_le (show 1 ≤ f by omega)]

theorem step_back_add_succ {c f : Nat} (hc : 0 < c) (j : Nat) :
    ((if f = 0 then c - 1 else f - 1) + (j + 1)) % c = (f + j) % c := by
  by_cases hf : f = 0
  · subst hf
    have : c - 1 + (j + 1) = c + j := by omega
    simp [this]
  · have : f - 1 + (j + 1) = f + j := by omega
    simp [hf, this]

theorem step_back_lt {c f : Nat} (hc : 0 < c) (hf : f < c) :
    (if f = 0 then c - 1 else f - 1) < c := by
  split <;> omega

theorem wrap_ne {c f i j : Nat} (hf : f < c) (hi : i < c) (hj : j < c) (hij : i ≠ j) :
    (f + i) % c ≠ (f + j) % c := by
  have h1 := mod_wrap (f + i) c (by omega)
  have h2 := mod_wrap (f + j) c (by omega)
  omega

theorem Holds.block_size_pos {d : Deque} {xs : List Int} (h : Holds d xs) :
    0 < d.block_size := by
  rw [h.block_size_eq]; decide

theorem Holds.lt_of_getElem? {d : Deque} {xs : List Int} (h : Holds d xs) {i : Nat} {x : Int}
    (hix : xs[i]? = some x) : i < d.current_size := by
  rw [h.size_eq]
  exact (List.getElem?_eq_some.1 hix).1

theorem Holds.back_lt {d : Deque} {xs : List Int} (h : Holds d xs) :
    d.back_index < d.capacity := by
  rw [h.back_eq]
  exact Nat.mod_lt _ (by have := h.capacity_pos; omega)

theorem Holds.grow_if_full {d : Deque} {xs : List Int} (h : Holds d xs) :
    d.grow_if_full.1 = .ok () ∧ Holds d.grow_if_full.2 xs ∧
      d.grow_if_full.2.current_size < d.grow_if_full.2.capacity := by
  unfold Deque.grow_if_full
  by_cases hfull : d.current_size = d.capacity
  · rw [if_pos hfull]
    obtain ⟨h1, h2, _, h4, _, h6, _, _⟩ := h.expand hfull
    refine ⟨h1, h2, ?_⟩
    rw [h4, h6]
    have := h.block_size_pos
    omega
  · rw [if_neg hfull]
    refine ⟨rfl, h, ?_⟩
    have := h.size_le
    show d.current_size < d.capacity
    omega

theorem Holds.push_back {d : Deque} {xs : List Int} (h : Holds d xs) (v : Int) :
    (d.push_back v).1 = .ok () ∧ Holds (d.push_back v).2 (xs ++ [v]) := by
  obtain ⟨hr, h1, hlt⟩ := h.grow_if_full
  rcases hg : d.grow_if_full with ⟨r, d1⟩
  rw [hg] at hr h1 hlt
  simp only at hr h1 hlt
  subst hr
  have hcap := h1.capacity_pos
  obtain ⟨m', hw, hm', hself, hother⟩ :=
    h1.shaped.write_slot_ok h1.block_size_pos (s := d1.back_index)
      (by rw [← h1.capacity_eq]; exact h1.back_lt) v
  have hpb : d.push_back v = (.ok (), { d1 with
      blockmap := m'
      back_index := (d1.back_index + 1) % d1.capacity
      current_size := d1.current_size + 1 }) := by
    simp [Deque.push_back, hg, hw, size_mod_of_pos (show 0 < d1.capacity by omega)]
  rw [hpb]
  refine ⟨rfl, ?_⟩
  refine
    { block_size_eq := h1.block_size_eq
      num_blocks_pos := h1.num_blocks_pos
      capacity_eq := h1.capacity_eq
      shaped := hm'
      size_eq := by
        show d1.current_size + 1 = (xs ++ [v]).length
        rw [h1.size_eq]; simp
      size_le := by show d1.current_size + 1 ≤ d1.capacity; omega
      front_lt := h1.front_lt
      back_eq := by
        show (d1.back_index + 1) % d1.capacity =
          (d1.front_index + (d1.current_size + 1)) % d1.capacity
        rw [h1.back_eq, Nat.mod_add_mod, Nat.add_assoc]
      elems := ?_ }
  intro i x hix
  show read_slot m' d1.block_size ((d1.front_index + i) % d1.capacity) = .ok x
  by_cases hi : i < xs.length
  · rw [List.getElem?_append_left hi] at hix
    have hne : (d1.front_index + i) % d1.capacity ≠ d1.back_index := by
      rw [h1.back_eq]
      exact wrap_ne h1.front_lt (by rw [h1.size_eq] at hlt; omega) hlt
        (by rw [h1.size_eq]; omega)
    rw [hother _ hne]
    exact h1.elems i x hix
  · have hlen := (List.getElem?_eq_some.1 hix).1
    simp only [List.length_append, List.length_singleton] at hlen
    have hi' : i = xs.length := by omega
    subst hi'
    simp at hix
    subst hix
    rw [← h1.size_eq, ← h1.back_eq]
    exact hself

theorem Holds.push_front {d : Deque} {xs : List Int} (h : Holds d xs) (v : Int) :
    (d.push_front v).1 = .ok () ∧ Holds (d.push_front v).2 (v :: xs) := by
  obtain ⟨hr, h1, hlt⟩ := h.grow_if_full
  rcases hg : d.grow_if_full with ⟨r, d1⟩
  rw [hg] at hr h1 hlt
  simp only at hr h1 hlt
  subst hr
  have hcap := h1.capacity_pos
  have hc0 : 0 < d1.capacity := by omega
  have hflt := step_back_lt hc0 h1.front_lt
  obtain ⟨m', hw, hm', hself, hother⟩ :=
    h1.shaped.write_slot_ok h1.block_size_pos
      (s := if d1.front_index = 0 then d1.capacity - 1 else d1.front_index - 1)
      (by rw [← h1.capacity_eq]; exact hflt) v
  have hpf : d.push_front v = (.ok (), { d1 with
      blockmap := m'
      front_index := if d1.front_index = 0 then d1.capacity - 1 else d1.front_index - 1
      current_size := d1.current_size + 1 }) := by
    simp only [Deque.push_front, hg, step_back_eq hc0, hw]
  rw [hpf]
  refine ⟨rfl, ?_⟩
  refine
    { block_size_eq := h1.block_size_eq
      num_blocks_pos := h1.num_blocks_pos
      capacity_eq := h1.capacity_eq
      shaped := hm'
      size_eq := by
        show d1.current_size + 1 = (v :: xs).length
        rw [h1.size_eq]; simp
      size_le := by show d1.current_size + 1 ≤ d1.capacity; omega
      front_lt := hflt
      back_eq := by
        show d1.back_index = ((if d1.front_index = 0 then d1.capacity - 1
          else d1.front_index - 1) + (d1.current_size + 1)) % d1.capacity
        rw [step_back_add_succ hc0, h1.back_eq]
      elems := ?_ }
  intro i x hix
  show read_slot m' d1.block_size (((if d1.front_index = 0 then d1.capacity - 1
    else d1.front_index - 1) + i) % d1.capacity) = .ok x
  cases i with
  | zero =>
    simp at hix
    subst hix
    rw [Nat.add_zero, Nat.mod_eq_of_lt hflt]
    exact hself
  | succ j =>
    rw [List.getElem?_cons_succ] at hix
    have hj := h1.lt_of_getElem? hix
    rw [step_back_add_succ hc0]
    have hne : (d1.front_index + j) % d1.capacity ≠
        (if d1.front_index = 0 then d1.capacity - 1 else d1.front_index - 1) := by
      have h2 := mod_wrap (d1.front_index + j) d1.capacity (by have := h1.front_lt; omega)
      have := h1.front_lt
      split <;> omega
    rw [hother _ hne]
    exact h1.elems j x hix

theorem Holds.pop_front {d : Deque} {xs : List Int} (h : Holds d xs)
    (hne : d.current_size ≠ 0) :
    d.pop_front.1 = .ok () ∧ Holds d.pop_front.2 xs.tail ∧
      d.pop_front.2 = { d with
        front_index := (d.front_index + 1) % d.capacity
        current_size := d.current_size - 1 } := by
  have hcap := h.capacity_pos
  have hc0 : 0 < d.capacity := by omega
  have hpf : d.pop_front = (.ok (), { d with
      front_index := (d.front_index + 1) % d.capacity
      current_size := d.current_size - 1 }) := by
    simp [Deque.pop_front, Deque.empty, hne, size_mod_of_pos hc0,
      size_sub_of_le (show 1 ≤ d.current_size by omega)]
  rw [hpf]
  refine ⟨rfl, ?_, rfl⟩
  have hshift : ∀ i, ((d.front_index + 1) % d.capacity + i) % d.capacity =
      (d.front_index + (i + 1)) % d.capacity := by
    intro i
    rw [Nat.mod_add_mod]
    congr 1
    omega
  refine
    { block_size_eq := h.block_size_eq
      num_blocks_pos := h.num_blocks_pos
      capacity_eq := h.capacity_eq
      shaped := h.shaped
      size_eq := by
        show d.current_size - 1 = xs.tail.length
        rw [h.size_eq]; simp
      size_le := by show d.current_size - 1 ≤ d.capacity; have := h.size_le; omega
      front_lt := Nat.mod_lt _ hc0
      back_eq := by
        show d.back_index = ((d.front_index + 1) % d.capacity + (d.current_size - 1)) % d.capacity
        rw [hshift, h.back_eq]
        congr 2
        omega
      elems := ?_ }
  intro i x hix
  show read_slot d.blockmap d.block_size
    (((d.front_index + 1) % d.capacity + i) % d.capacity) = .ok x
  rw [List.getElem?_tail] at hix
  rw [hshift]
  exact h.elems (i + 1) x hix

theorem Holds.pop_back {d : Deque} {xs : List Int} (h : Holds d xs)
    (hne : d.current_size ≠ 0) :
    d.pop_back.1 = .ok () ∧ Holds d.pop_back.2 xs.dropLast ∧
      d.pop_back.2 = { d with
        back_index := if d.back_index = 0 then d.capacity - 1 else d.back_index - 1
        current_size := d.current_size - 1 } := by
  have hcap := h.capacity_pos
  have hc0 : 0 < d.capacity := by omega
  have hpb : d.pop_back = (.ok (), { d with
      back_index := if d.back_index = 0 then d.capacity - 1 else d.back_index - 1
      current_size := d.current_size - 1 }) := by
    simp only [Deque.pop_back, Deque.empty, step_back_eq hc0,
      size_sub_of_le (show 1 ≤ d.current_size by omega)]
    simp [hne]
  rw [hpb]
  refine ⟨rfl, ?_, rfl⟩
  refine
    { block_size_eq := h.block_size_eq
      num_blocks_pos := h.num_blocks_pos
      capacity_eq := h.capacity_eq
      shaped := h.shaped
      size_eq := by
        show d.current_size - 1 = xs.dropLast.length
        rw [h.size_eq]; simp
      size_le := by show d.current_size - 1 ≤ d.capacity; have := h.size_le; omega
      front_lt := h.front_lt
      back_eq := by
        show (if d.back_index = 0 then d.capacity - 1 else d.back_index - 1) =
          (d.front_index + (d.current_size - 1)) % d.capacity
        have h1 := mod_wrap (d.front_index + d.current_size) d.capacity
          (by have := h.front_lt; have := h.size_le; omega)
        have h2 := mod_wrap (d.front_index + (d.current_size - 1)) d.capacity
          (by have := h.front_lt; have := h.size_le; omega)
        have h3 := h.back_eq
        split <;> omega
      elems := ?_ }
  intro i x hix
  show read_slot d.blockmap d.block_size ((d.front_index + i) % d.capacity) = .ok x
  rw [List.getElem?_dropLast] at hix
  split at hix
  · exact h.elems i x hix
  · cases hix

theorem subscript_of_ge (d : Deque) {i : Nat} (hi : d.current_size ≤ i) :
    d.subscript i = (.error .outOfBounds, d) := by
  simp [Deque.subscript, hi]

theorem subscript_read_of_ge (d : Deque) {i : Nat} (hi : d.current_size ≤ i) :
    d.subscript_read i = (.error .outOfBounds, d) := by
  simp [Deque.subscript_read, subscript_of_ge d hi]

theorem subscript_write_of_ge (d : Deque) {i : Nat} (hi : d.current_size ≤ i) (v : Int) :
    d.subscript_write i v = (.error .outOfBounds, d) := by
  simp [Deque.subscript_write, subscript_of_ge d hi]

theorem Holds.slot_lt {d : Deque} {xs : List Int} (h : Holds d xs) (i : Nat) :
    (d.front_index + i) % d.capacity < d.num_blocks * d.block_size := by
  rw [← h.capacity_eq]
  exact Nat.mod_lt _ (by have := h.capacity_pos; omega)

theorem Holds.subscript_of_lt {d : Deque} {xs : List Int} (h : Holds d xs) {i : Nat}
    (hi : i < d.current_size) :
    d.subscript i = (.ok ((d.front_index + i) % d.capacity), d) := by
  have hc0 : 0 < d.capacity := by have := h.capacity_pos; omega
  obtain ⟨x, hx⟩ := h.shaped.read_slot_ok h.block_size_pos (h.slot_lt i)
  simp [Deque.subscript, Nat.not_le.2 hi, size_mod_of_pos hc0, hx]

theorem Holds.subscript_read_eq {d : Deque} {xs : List Int} (h : Holds d xs) (i : Nat) :
    d.subscript_read i = (seq_at xs i, d) := by
  by_cases hi : i < d.current_size
  · have hlen : i < xs.length := by rw [← h.size_eq]; exact hi
    have hix : xs[i]? = some xs[i] := List.getElem?_eq_getElem hlen
    simp [Deque.subscript_read, h.subscript_of_lt hi, h.elems i _ hix, seq_at, hix]
  · have hlen : xs.length ≤ i := by rw [← h.size_eq]; omega
    rw [subscript_read_of_ge d (by omega)]
    simp [seq_at, List.getElem?_eq_none hlen]

theorem Holds.front_eq {d : Deque} {xs : List Int} (h : Holds d xs) :
    d.front = (seq_end xs 0, d) := by
  by_cases hn : d.current_size = 0
  · have hlen : xs.length ≤ 0 := by rw [← h.size_eq]; omega
    simp [Deque.front, Deque.empty, hn, seq_end, List.getElem?_eq_none hlen]
  · have hlen : 0 < xs.length := by rw [← h.size_eq]; omega
    have hix : xs[0]? = some xs[0] := List.getElem?_eq_getElem hlen
    have := h.elems 0 _ hix
    rw [Nat.add_zero, Nat.mod_eq_of_lt h.front_lt] at this
    simp [Deque.front, Deque.empty, hn, seq_end, hix, this]

theorem Holds.last_index_eq {d : Deque} {xs : List Int} (h : Holds d xs)
    (hn : d.current_size ≠ 0) :
    (if d.back_index = 0 then size_sub d.capacity 1 else size_sub d.back_index 1) =
      (d.front_index + (d.current_size - 1)) % d.capacity := by
  have hc0 : 0 < d.capacity := by have := h.capacity_pos; omega
  rw [step_back_eq hc0]
  have h1 := mod_wrap (d.front_index + d.current_size) d.capacity
    (by have := h.front_lt; have := h.size_le; omega)
  have h2 := mod_wrap (d.front_index + (d.current_size - 1)) d.capacity
    (by have := h.front_lt; have := h.size_le; omega)
  have h3 := h.back_eq
  split <;> omega

theorem Holds.back_eq_seq {d : Deque} {xs : List Int} (h : Holds d xs) :
    d.back = (seq_end xs (xs.length - 1), d) := by
  by_cases hn : d.current_size = 0
  · have hlen : xs.length ≤ xs.length - 1 := by rw [← h.size_eq]; omega
    simp [Deque.back, Deque.empty, hn, seq_end, List.getElem?_eq_none hlen]
  · have hlen : xs.length - 1 < xs.length := by rw [← h.size_eq]; omega
    obtain ⟨x, hix⟩ : ∃ x, xs[xs.length - 1]? = some x := ⟨_, List.getElem?_eq_getElem hlen⟩
    have := h.elems _ x hix
    rw [← h.size_eq, ← h.last_index_eq hn] at this
    simp only [Deque.back, Deque.empty, beq_iff_eq, hn, if_false, seq_end, hix, this]

theorem Holds.subscript_write {d : Deque} {xs : List Int} (h : Holds d xs) (i : Nat)
    (v : Int) : Holds (d.subscript_write i v).2 (xs.set i v) := by
  by_cases hi : i < d.current_size
  · obtain ⟨m', hw, hm', hself, hother⟩ :=
      h.shaped.write_slot_ok h.block_size_pos (h.slot_lt i) v
    have hsw : d.subscript_write i v = (.ok (), { d with blockmap := m' }) := by
      simp [Deque.subscript_write, h.subscript_of_lt hi, hw]
    rw [hsw]
    refine
      { block_size_eq := h.block_size_eq
        num_blocks_pos := h.num_blocks_pos
        capacity_eq := h.capacity_eq
        shaped := hm'
        size_eq := by
          show d.current_size = (xs.set i v).length
          rw [h.size_eq]; simp
        size_le := h.size_le
        front_lt := h.front_lt
        back_eq := h.back_eq
        elems := ?_ }
    intro j x hjx
    show read_slot m' d.block_size ((d.front_index + j) % d.capacity) = .ok x
    rw [List.getElem?_set] at hjx
    by_cases hij : i = j
    · subst hij
      rw [if_pos rfl] at hjx
      split at hjx
      · cases hjx
        exact hself
      · cases hjx
    · rw [if_neg hij] at hjx
      have hj := h.lt_of_getElem? hjx
      have hne := wrap_ne h.front_lt (show j < d.capacity by have := h.size_le; omega)
        (show i < d.capacity by have := h.size_le; omega) (Ne.symm hij)
      rw [hother _ hne]
      exact h.elems j x hjx
  · rw [subscript_write_of_ge d (by omega)]
    have hlen : xs.length ≤ i := by rw [← h.size_eq]; omega
    rw [List.set_eq_of_length_le hlen]
    exact h

theorem pop_front_of_empty (d : Deque) (hn : d.current_size = 0) :
    d.pop_front = (.error .underflow, d) := by
  simp [Deque.pop_front, Deque.empty, hn]

theorem pop_back_of_empty (d : Deque) (hn : d.current_size = 0) :
    d.pop_back = (.error .underflow, d) := by
  simp [Deque.pop_back, Deque.empty, hn]

/-- Every reachable state satisfies the invariant for some sequence. -/
theorem Reachable.holds {d : Deque} (hd : Reachable d) : ∃ xs, Holds d xs := by
  induction hd with
  | new => exact ⟨[], Holds.new⟩
  | push_front v _ ih =>
    obtain ⟨xs, h⟩ := ih
    exact ⟨v :: xs, (h.push_front v).2⟩
  | push_back v _ ih =>
    obtain ⟨xs, h⟩ := ih
    exact ⟨xs ++ [v], (h.push_back v).2⟩
  | @pop_front d _ ih =>
    obtain ⟨xs, h⟩ := ih
    by_cases hn : d.current_size = 0
    · rw [pop_front_of_empty d hn]
      exact ⟨xs, h⟩
    · exact ⟨xs.tail, (h.pop_front hn).2.1⟩
  | @pop_back d _ ih =>
    obtain ⟨xs, h⟩ := ih
    by_cases hn : d.current_size = 0
    · rw [pop_back_of_empty d hn]
      exact ⟨xs, h⟩
    · exact ⟨xs.dropLast, (h.pop_back hn).2.1⟩
  | subscript_write i v _ ih =>
    obtain ⟨xs, h⟩ := ih
    exact ⟨xs.set i v, h.subscript_write i v⟩

theorem seq_at_ok {xs : List Int} {i : Nat} (hi : i < xs.length) :
    seq_at xs i = .ok xs[i] := by
  simp [seq_at, List.getElem?_eq_getElem hi]

theorem seq_end_ok {xs : List Int} {i : Nat} (hi : i < xs.length) :
    seq_end xs i = .ok xs[i] := by
  simp [seq_end, List.getElem?_eq_getElem hi]

theorem seq_end_none {xs : List Int} {i : Nat} (hi : xs.length ≤ i) :
    seq_end xs i = .error .underflow := by
  simp [seq_end, List.getElem?_eq_none hi]

theorem seq_at_none {xs : List Int} {i : Nat} (hi : xs.length ≤ i) :
    seq_at xs i = .error .outOfBounds := by
  simp [seq_at, List.getElem?_eq_none hi]

theorem seq_at_append_left {xs : List Int} {i : Nat} (hi : i < xs.length) (v : Int) :
    seq_at (xs ++ [v]) i = seq_at xs i := by
  simp [seq_at, List.getElem?_append_left hi]

theorem seq_at_append_self (xs : List Int) (v : Int) :
    seq_at (xs ++ [v]) xs.length = .ok v := by
  simp [seq_at]

theorem seq_end_append_self (xs : List Int) (v : Int) :
    seq_end (xs ++ [v]) ((xs ++ [v]).length - 1) = .ok v := by
  simp [seq_end]

theorem seq_at_tail (xs : List Int) (i : Nat) : seq_at xs.tail i = seq_at xs (i + 1) := by
  simp [seq_at]

theorem seq_at_dropLast {xs : List Int} {i : Nat} (hi : i < xs.length - 1) :
    seq_at xs.dropLast i = seq_at xs i := by
  rw [seq_at, seq_at, List.getElem?_dropLast, if_pos hi]

theorem sample_full_reachable : Reachable sample_full :=
  .push_back 4 (.push_back 3 (.push_front 2 (.push_front 1 .new)))

/-- The driver keeps the deque and the reference vector in step. -/
theorem perform_operation_holds (s : Deque × List Int) (op : Operation) (h : Holds s.1 s.2) :
    Holds (perform_operation s op).1 (perform_operation s op).2 := by
  cases op with
  | push_front v => exact (h.push_front v).2
  | push_back v => exact (h.push_back v).2
  | pop_front =>
    by_cases hn : s.1.current_size = 0
    · simpa [perform_operation, Deque.empty, hn] using h
    · simpa [perform_operation, Deque.empty, hn] using (h.pop_front hn).2.1
  | pop_back =>
    by_cases hn : s.1.current_size = 0
    · simpa [perform_operation, Deque.empty, hn] using h
    · simpa [perform_operation, Deque.empty, hn] using (h.pop_back hn).2.1

theorem foldl_perform_operation_holds (ops : List Operation) :
    ∀ s : Deque × List Int, Holds s.1 s.2 →
      Holds (ops.foldl perform_operation s).1 (ops.foldl perform_operation s).2 := by
  induction ops with
  | nil => intro s h; exact h
  | cons op ops ih =>
    intro s h
    exact ih _ (perform_operation_holds s op h)

theorem run_operations_holds (ops : List Operation) :
    Holds (run_operations ops).1 (run_operations ops).2 :=
  foldl_perform_operation_holds ops (Deque.new, []) Holds.new

/-- C1: after any log of push_front, push_back, pop_front and pop_back driven as
the stress test does (a pop is skipped on an empty deque), the deque has the size
of the reference vector and `operator[]` returns the reference vector's element at
every index below that size. -/
theorem stress_test_agrees_with_reference (ops : List Operation) :
    (run_operations ops).1.size = (run_operations ops).2.length ∧
    ∀ (i : Nat) (hi : i < (run_operations ops).2.length),
      ((run_operations ops).1.subscript_read i).1 = .ok ((run_operations ops).2[i]) := by
  have h := run_operations_holds ops
  refine ⟨h.size_eq, ?_⟩
  intro i hi
  rw [h.subscript_read_eq, seq_at_ok hi]

theorem stress_test_agrees_with_reference_witness :
    (run_operations [.push_back 1, .push_back 2, .push_front 0, .pop_back, .pop_back,
      .pop_back, .pop_back, .push_front 5, .push_front 6]).1.size = 2 ∧
    ((run_operations [.push_back 1, .push_back 2, .push_front 0, .pop_back, .pop_back,
      .pop_back, .pop_back, .push_front 5, .push_front 6]).1.subscript_read 1).1 = .ok 5 :=
  ⟨(stress_test_agrees_with_reference _).1,
    (stress_test_agrees_with_reference _).2 1 (by decide)⟩

/-- C2: on a reachable full deque `expand_blockmap` succeeds, keeps `size()`, and
`operator[]` returns at every index below `size()` the value it returned before. -/
theorem expand_blockmap_keeps_elements (d : Deque) (hd : Reachable d)
    (hfull : d.current_size = d.capacity) :
    d.expand_blockmap.1 = .ok () ∧
    d.expand_blockmap.2.size = d.size ∧
    ∀ i, i < d.size →
      ∃ x, (d.subscript_read i).1 = .ok x ∧ (d.expand_blockmap.2.subscript_read i).1 = .ok x := by
  obtain ⟨xs, h⟩ := hd.holds
  obtain ⟨h1, h2, _, _, _, h6, _, _⟩ := h.expand hfull
  refine ⟨h1, h6, ?_⟩
  intro i hi
  have hlen : i < xs.length := by rw [← h.size_eq]; exact hi
  refine ⟨xs[i], ?_, ?_⟩
  · rw [h.subscript_read_eq, seq_at_ok hlen]
  · rw [h2.subscript_read_eq, seq_at_ok hlen]

theorem expand_blockmap_keeps_elements_witness :
    Reachable sample_full ∧ sample_full.current_size = sample_full.capacity ∧
    (sample_full.expand_blockmap.1 = .ok () ∧
      sample_full.expand_blockmap.2.size = sample_full.size ∧
      ∀ i, i < sample_full.size →
        ∃ x, (sample_full.subscript_read i).1 = .ok x ∧
          (sample_full.expand_blockmap.2.subscript_read i).1 = .ok x) :=
  ⟨sample_full_reachable, by decide,
    expand_blockmap_keeps_elements sample_full sample_full_reachable (by decide)⟩

theorem sample_three_reachable : Reachable sample_three :=
  .push_front 0 (.push_back 2 (.push_back 1 .new))

theorem seq_end_eq_seq_at {xs : List Int} {i : Nat} (hi : i < xs.length) :
    seq_end xs i = seq_at xs i := by
  rw [seq_end_ok hi, seq_at_ok hi]

theorem front_of_empty (d : Deque) (hn : d.current_size = 0) :
    d.front = (.error .underflow, d) := by
  simp [Deque.front, Deque.empty, hn]

theorem back_of_empty (d : Deque) (hn : d.current_size = 0) :
    d.back = (.error .underflow, d) := by
  simp [Deque.back, Deque.empty, hn]

/-- C3: on a reachable deque each of pop_front, pop_back, front and back fails
exactly when `size()` is 0; it then raises the underflow error and leaves the
whole state as it was, so the deque is still empty. -/
theorem underflow_exactly_when_empty (d : Deque) (hd : Reachable d) :
    (failed d.pop_front.1 = true ↔ d.size = 0) ∧
    (failed d.pop_back.1 = true ↔ d.size = 0) ∧
    (failed d.front.1 = true ↔ d.size = 0) ∧
    (failed d.back.1 = true ↔ d.size = 0) ∧
    (d.size = 0 →
      d.pop_front = (.error .underflow, d) ∧ d.pop_back = (.error .underflow, d) ∧
      d.front = (.error .underflow, d) ∧ d.back = (.error .underflow, d) ∧
      d.empty = true) := by
  obtain ⟨xs, h⟩ := hd.holds
  by_cases hn : d.current_size = 0
  · have e1 := pop_front_of_empty d hn
    have e2 := pop_back_of_empty d hn
    have e3 := front_of_empty d hn
    have e4 := back_of_empty d hn
    refine ⟨?_, ?_, ?_, ?_, fun _ => ⟨e1, e2, e3, e4, by simp [Deque.empty, hn]⟩⟩
    · rw [e1]; simp [failed, Deque.size, hn]
    · rw [e2]; simp [failed, Deque.size, hn]
    · rw [e3]; simp [failed, Deque.size, hn]
    · rw [e4]; simp [failed, Deque.size, hn]
  · have hlen : 0 < xs.length := by rw [← h.size_eq]; omega
    have hlen' : xs.length - 1 < xs.length := by omega
    refine ⟨?_, ?_, ?_, ?_, fun h0 => absurd h0 hn⟩
    · rw [(h.pop_front hn).1]; simp [failed, Deque.size, hn]
    · rw [(h.pop_back hn).1]; simp [failed, Deque.size, hn]
    · rw [h.front_eq, seq_end_ok hlen]; simp [failed, Deque.size, hn]
    · rw [h.back_eq_seq, seq_end_ok hlen']; simp [failed, Deque.size, hn]

theorem underflow_exactly_when_empty_witness :
    Reachable Deque.new ∧
    ((failed Deque.new.pop_front.1 = true ↔ Deque.new.size = 0) ∧
    (failed Deque.new.pop_back.1 = true ↔ Deque.new.size = 0) ∧
    (failed Deque.new.front.1 = true ↔ Deque.new.size = 0) ∧
    (failed Deque.new.back.1 = true ↔ Deque.new.size = 0) ∧
    (Deque.new.size = 0 →
      Deque.new.pop_front = (.error .underflow, Deque.new) ∧
      Deque.new.pop_back = (.error .underflow, Deque.new) ∧
      Deque.new.front = (.error .underflow, Deque.new) ∧
      Deque.new.back = (.error .underflow, Deque.new) ∧
      Deque.new.empty = true)) :=
  ⟨.new, underflow_exactly_when_empty Deque.new .new⟩

/-- C4: on a reachable deque `operator[](i)` fails exactly when `i >= size()`, the
failure being the out-of-bounds error; so it fails at `size() + k` for every `k`
and succeeds at `size() - 1` on a non-empty deque; and an access, failing or not,
leaves the state as it was. -/
theorem subscript_fails_exactly_out_of_bounds (d : Deque) (hd : Reachable d) (i : Nat) :
    (failed (d.subscript i).1 = true ↔ d.size ≤ i) ∧
    ((d.subscript i).1 = .error .outOfBounds ↔ d.size ≤ i) ∧
    (failed (d.subscript_read i).1 = true ↔ d.size ≤ i) ∧
    ((d.subscript_read i).1 = .error .outOfBounds ↔ d.size ≤ i) ∧
    (∀ k, (d.subscript (d.size + k)).1 = .error .outOfBounds) ∧
    (d.size ≠ 0 → failed (d.subscript (d.size - 1)).1 = false) ∧
    (d.subscript i).2 = d ∧ (d.subscript_read i).2 = d := by
  obtain ⟨xs, h⟩ := hd.holds
  have hlast : d.size ≠ 0 → failed (d.subscript (d.size - 1)).1 = false := by
    intro hn
    rw [h.subscript_of_lt (show d.size - 1 < d.current_size by
      simp only [Deque.size] at hn ⊢; omega)]
    rfl
  have hpast : ∀ k, (d.subscript (d.size + k)).1 = .error .outOfBounds := by
    intro k
    rw [subscript_of_ge d (show d.current_size ≤ d.size + k by simp [Deque.size])]
  by_cases hi : i < d.current_size
  · have hlen : i < xs.length := by rw [← h.size_eq]; exact hi
    have hge : ¬ d.size ≤ i := by simp only [Deque.size]; omega
    rw [h.subscript_read_eq, h.subscript_of_lt hi, seq_at_ok hlen]
    refine ⟨?_, ?_, ?_, ?_, hpast, hlast, ?_, ?_⟩ <;> simp [failed, hge]
  · have hge : d.size ≤ i := by simp only [Deque.size]; omega
    rw [subscript_read_of_ge d (by omega), subscript_of_ge d (by omega)]
    refine ⟨?_, ?_, ?_, ?_, hpast, hlast, ?_, ?_⟩ <;> simp [failed, hge]

theorem subscript_fails_exactly_out_of_bounds_witness :
    Reachable sample_three ∧
    (sample_three.subscript 3).1 = .error .outOfBounds ∧
    (sample_three.subscript 3).2 = sample_three ∧
    failed (sample_three.subscript 2).1 = false :=
  ⟨sample_three_reachable,
    (subscript_fails_exactly_out_of_bounds sample_three sample_three_reachable 3).2.1.2
      (by decide),
    (subscript_fails_exactly_out_of_bounds sample_three sample_three_reachable 3).2.2.2.2.2.2.1,
    (subscript_fails_exactly_out_of_bounds sample_three sample_three_reachable 3).2.2.2.2.2.1
      (by decide)⟩

/-- C5: on a reachable deque `push_back(v)` followed by `pop_back()` both succeed
and give back the prior `size()`, the prior result of `front()` (a value, or the
underflow error if the deque was empty) and the prior value of `operator[]` at every
index below `size()`, growth included. -/
theorem push_back_pop_back_round_trip (d : Deque) (hd : Reachable d) (v : Int) :
    (d.push_back v).1 = .ok () ∧
    (d.push_back v).2.pop_back.1 = .ok () ∧
    (d.push_back v).2.pop_back.2.size = d.size ∧
    (d.push_back v).2.pop_back.2.front.1 = d.front.1 ∧
    ∀ i, i < d.size →
      ∃ x, (d.subscript_read i).1 = .ok x ∧
        ((d.push_back v).2.pop_back.2.subscript_read i).1 = .ok x := by
  obtain ⟨xs, h⟩ := hd.holds
  obtain ⟨h1, h2⟩ := h.push_back v
  have hne : (d.push_back v).2.current_size ≠ 0 := by
    rw [h2.size_eq]; simp
  obtain ⟨h3, h4, _⟩ := h2.pop_back hne
  rw [List.dropLast_concat] at h4
  refine ⟨h1, h3, ?_, ?_, ?_⟩
  · show (d.push_back v).2.pop_back.2.current_size = d.current_size
    rw [h4.size_eq, h.size_eq]
  · rw [h4.front_eq, h.front_eq]
  · intro i hi
    have hlen : i < xs.length := by rw [← h.size_eq]; exact hi
    exact ⟨xs[i], by rw [h.subscript_read_eq, seq_at_ok hlen],
      by rw [h4.subscript_read_eq, seq_at_ok hlen]⟩

theorem push_back_pop_back_round_trip_witness :
    Reachable sample_full ∧
    ((sample_full.push_back 5).1 = .ok () ∧
    (sample_full.push_back 5).2.pop_back.1 = .ok () ∧
    (sample_full.push_back 5).2.pop_back.2.size = sample_full.size ∧
    (sample_full.push_back 5).2.pop_back.2.front.1 = sample_full.front.1 ∧
    ∀ i, i < sample_full.size →
      ∃ x, (sample_full.subscript_read i).1 = .ok x ∧
        ((sample_full.push_back 5).2.pop_back.2.subscript_read i).1 = .ok x) :=
  ⟨sample_full_reachable, push_back_pop_back_round_trip sample_full sample_full_reachable 5⟩

theorem sample_wrapped_reachable : Reachable sample_wrapped :=
  .push_back 5 (.push_back 4 (.pop_front (.push_back 3 (.push_back 2 (.push_back 1 .new)))))

/-- C6: on a reachable deque `push_back(v)` succeeds, `size()` grows by one,
`operator[]` keeps its value at every old index and returns `v` at the old
`size()`, and `back()` returns `v`, growth included. -/
theorem push_back_appends (d : Deque) (hd : Reachable d) (v : Int) :
    (d.push_back v).1 = .ok () ∧
    (d.push_back v).2.size = d.size + 1 ∧
    (∀ i, i < d.size →
      ∃ x, (d.subscript_read i).1 = .ok x ∧ ((d.push_back v).2.subscript_read i).1 = .ok x) ∧
    ((d.push_back v).2.subscript_read d.size).1 = .ok v ∧
    (d.push_back v).2.back.1 = .ok v := by
  obtain ⟨xs, h⟩ := hd.holds
  obtain ⟨h1, h2⟩ := h.push_back v
  refine ⟨h1, ?_, ?_, ?_, ?_⟩
  · show (d.push_back v).2.current_size = d.current_size + 1
    rw [h2.size_eq, h.size_eq]; simp
  · intro i hi
    have hlen : i < xs.length := by rw [← h.size_eq]; exact hi
    exact ⟨xs[i], by rw [h.subscript_read_eq, seq_at_ok hlen],
      by rw [h2.subscript_read_eq, seq_at_append_left hlen, seq_at_ok hlen]⟩
  · rw [h2.subscript_read_eq]
    show seq_at (xs ++ [v]) d.current_size = .ok v
    rw [h.size_eq, seq_at_append_self]
  · rw [h2.back_eq_seq, seq_end_append_self]

theorem push_back_appends_witness :
    Reachable sample_full ∧
    ((sample_full.push_back 5).1 = .ok () ∧
    (sample_full.push_back 5).2.size = sample_full.size + 1 ∧
    (∀ i, i < sample_full.size →
      ∃ x, (sample_full.subscript_read i).1 = .ok x ∧
        ((sample_full.push_back 5).2.subscript_read i).1 = .ok x) ∧
    ((sample_full.push_back 5).2.subscript_read sample_full.size).1 = .ok 5 ∧
    (sample_full.push_back 5).2.back.1 = .ok 5) :=
  ⟨sample_full_reachable, push_back_appends sample_full sample_full_reachable 5⟩

/-- C7: on a reachable deque `push_front(v)` succeeds, `size()` grows by one,
`front()` and `operator[](0)` return `v`, and `operator[](i + 1)` returns what
`operator[](i)` returned before, for every old index `i`, growth and the wrap of
`front_index` from 0 to `capacity - 1` included. -/
theorem push_front_prepends (d : Deque) (hd : Reachable d) (v : Int) :
    (d.push_front v).1 = .ok () ∧
    (d.push_front v).2.size = d.size + 1 ∧
    (d.push_front v).2.front.1 = .ok v ∧
    ((d.push_front v).2.subscript_read 0).1 = .ok v ∧
    ∀ i, i < d.size →
      ∃ x, (d.subscript_read i).1 = .ok x ∧
        ((d.push_front v).2.subscript_read (i + 1)).1 = .ok x := by
  obtain ⟨xs, h⟩ := hd.holds
  obtain ⟨h1, h2⟩ := h.push_front v
  refine ⟨h1, ?_, ?_, ?_, ?_⟩
  · show (d.push_front v).2.current_size = d.current_size + 1
    rw [h2.size_eq, h.size_eq]; simp
  · rw [h2.front_eq]; simp [seq_end]
  · rw [h2.subscript_read_eq]; simp [seq_at]
  · intro i hi
    have hlen : i < xs.length := by rw [← h.size_eq]; exact hi
    refine ⟨xs[i], by rw [h.subscript_read_eq, seq_at_ok hlen], ?_⟩
    rw [h2.subscript_read_eq]
    simp [seq_at, List.getElem?_eq_getElem hlen]

theorem push_front_prepends_witness :
    Reachable sample_full ∧
    ((sample_full.push_front 5).1 = .ok () ∧
    (sample_full.push_front 5).2.size = sample_full.size + 1 ∧
    (sample_full.push_front 5).2.front.1 = .ok 5 ∧
    ((sample_full.push_front 5).2.subscript_read 0).1 = .ok 5 ∧
    ∀ i, i < sample_full.size →
      ∃ x, (sample_full.subscript_read i).1 = .ok x ∧
        ((sample_full.push_front 5).2.subscript_read (i + 1)).1 = .ok x) :=
  ⟨sample_full_reachable, push_front_prepends sample_full sample_full_reachable 5⟩

/-- C8: on a reachable non-empty deque `pop_front()` succeeds, `size()` drops by
one, and `operator[](i)` returns what `operator[](i + 1)` returned before, for
every `i` below the new size. -/
theorem pop_front_removes_front (d : Deque) (hd : Reachable d) (hne : d.size ≠ 0) :
    d.pop_front.1 = .ok () ∧
    d.pop_front.2.size = d.size - 1 ∧
    ∀ i, i < d.size - 1 →
      ∃ x, (d.subscript_read (i + 1)).1 = .ok x ∧ (d.pop_front.2.subscript_read i).1 = .ok x := by
  obtain ⟨xs, h⟩ := hd.holds
  obtain ⟨h1, h2, h3⟩ := h.pop_front hne
  refine ⟨h1, ?_, ?_⟩
  · rw [h3]; rfl
  · intro i hi
    have hlen : i + 1 < xs.length := by
      rw [← h.size_eq]; simp only [Deque.size] at hi; omega
    refine ⟨xs[i + 1], by rw [h.subscript_read_eq, seq_at_ok hlen], ?_⟩
    rw [h2.subscript_read_eq, seq_at_tail, seq_at_ok hlen]

theorem pop_front_removes_front_witness :
    Reachable sample_wrapped ∧ sample_wrapped.size ≠ 0 ∧
    (sample_wrapped.pop_front.1 = .ok () ∧
    sample_wrapped.pop_front.2.size = sample_wrapped.size - 1 ∧
    ∀ i, i < sample_wrapped.size - 1 →
      ∃ x, (sample_wrapped.subscript_read (i + 1)).1 = .ok x ∧
        (sample_wrapped.pop_front.2.subscript_read i).1 = .ok x) :=
  ⟨sample_wrapped_reachable, by decide,
    pop_front_removes_front sample_wrapped sample_wrapped_reachable (by decide)⟩

/-- C9: on a reachable non-empty deque `pop_back()` succeeds, `size()` drops by
one, `operator[]` keeps its value at every index below the new size, and when the
old size was at least 2 the new `back()` is the old `operator[](size() - 2)`. -/
theorem pop_back_removes_back (d : Deque) (hd : Reachable d) (hne : d.size ≠ 0) :
    d.pop_back.1 = .ok () ∧
    d.pop_back.2.size = d.size - 1 ∧
    (∀ i, i < d.size - 1 →
      ∃ x, (d.subscript_read i).1 = .ok x ∧ (d.pop_back.2.subscript_read i).1 = .ok x) ∧
    (2 ≤ d.size →
      ∃ x, (d.subscript_read (d.size - 2)).1 = .ok x ∧ d.pop_back.2.back.1 = .ok x) := by
  obtain ⟨xs, h⟩ := hd.holds
  obtain ⟨h1, h2, h3⟩ := h.pop_back hne
  have hsz : d.size = xs.length := h.size_eq
  refine ⟨h1, ?_, ?_, ?_⟩
  · rw [h3]; rfl
  · intro i hi
    have hlen : i < xs.length := by omega
    refine ⟨xs[i], by rw [h.subscript_read_eq, seq_at_ok hlen], ?_⟩
    rw [h2.subscript_read_eq, seq_at_dropLast (by omega), seq_at_ok hlen]
  · intro h2le
    have hlen : xs.length - 2 < xs.length := by omega
    refine ⟨xs[xs.length - 2], by rw [h.subscript_read_eq, hsz, seq_at_ok hlen], ?_⟩
    have e : xs.dropLast.length - 1 = xs.length - 2 := by
      rw [List.length_dropLast]; omega
    rw [h2.back_eq_seq, e, seq_end_eq_seq_at (by rw [List.length_dropLast]; omega),
      seq_at_dropLast (by omega), seq_at_ok hlen]

theorem pop_back_removes_back_witness :
    Reachable sample_wrapped ∧ sample_wrapped.size ≠ 0 ∧
    (sample_wrapped.pop_back.1 = .ok () ∧
    sample_wrapped.pop_back.2.size = sample_wrapped.size - 1 ∧
    (∀ i, i < sample_wrapped.size - 1 →
      ∃ x, (sample_wrapped.subscript_read i).1 = .ok x ∧
        (sample_wrapped.pop_back.2.subscript_read i).1 = .ok x) ∧
    (2 ≤ sample_wrapped.size →
      ∃ x, (sample_wrapped.subscript_read (sample_wrapped.size - 2)).1 = .ok x ∧
        sample_wrapped.pop_back.2.back.1 = .ok x)) :=
  ⟨sample_wrapped_reachable, by decide,
    pop_back_removes_back sample_wrapped sample_wrapped_reachable (by decide)⟩

/-- C10: on a reachable non-empty deque `front()` succeeds with the value of
`operator[](0)`, `back()` succeeds with the value of `operator[](size() - 1)`, and
neither changes the state. -/
theorem front_back_agree_with_subscript (d : Deque) (hd : Reachable d) (hne : d.size ≠ 0) :
    (∃ x, d.front.1 = .ok x ∧ (d.subscript_read 0).1 = .ok x) ∧
    (∃ y, d.back.1 = .ok y ∧ (d.subscript_read (d.size - 1)).1 = .ok y) ∧
    d.front.2 = d ∧ d.back.2 = d := by
  obtain ⟨xs, h⟩ := hd.holds
  have hsz : d.size = xs.length := h.size_eq
  have h0 : 0 < xs.length := by omega
  have hl : xs.length - 1 < xs.length := by omega
  refine ⟨⟨xs[0], ?_, ?_⟩, ⟨xs[xs.length - 1], ?_, ?_⟩, ?_, ?_⟩
  · rw [h.front_eq, seq_end_ok h0]
  · rw [h.subscript_read_eq, seq_at_ok h0]
  · rw [h.back_eq_seq, seq_end_ok hl]
  · rw [h.subscript_read_eq, hsz, seq_at_ok hl]
  · rw [h.front_eq]
  · rw [h.back_eq_seq]

theorem front_back_agree_with_subscript_witness :
    Reachable sample_three ∧ sample_three.size ≠ 0 ∧
    ((∃ x, sample_three.front.1 = .ok x ∧ (sample_three.subscript_read 0).1 = .ok x) ∧
    (∃ y, sample_three.back.1 = .ok y ∧
      (sample_three.subscript_read (sample_three.size - 1)).1 = .ok y) ∧
    sample_three.front.2 = sample_three ∧ sample_three.back.2 = sample_three) :=
  ⟨sample_three_reachable, by decide,
    front_back_agree_with_subscript sample_three sample_three_reachable (by decide)⟩

theorem read_slot_load {m : List (List Int)} {bs s : Nat} {x : Int}
    (h : read_slot m bs s = .ok x) : bs ≠ 0 ∧ load m (s / bs) (s % bs) = some x := by
  unfold read_slot at h
  by_cases hbs : bs = 0
  · simp [hbs] at h
  · refine ⟨hbs, ?_⟩
    rw [if_neg hbs] at h
    split at h
    · cases h
    · next v hv => cases h; exact hv

theorem Holds.grow_if_full_fields {d : Deque} {xs : List Int} (h : Holds d xs) :
    d.grow_if_full.2.block_size = d.block_size ∧
    d.grow_if_full.2.current_size = d.current_size ∧
    (d.current_size = d.capacity →
      d.grow_if_full = d.expand_blockmap ∧
      d.grow_if_full.2.num_blocks = d.num_blocks + 1 ∧
      d.grow_if_full.2.capacity = d.capacity + d.block_size ∧
      d.grow_if_full.2.front_index = 0 ∧
      d.grow_if_full.2.back_index = d.current_size) ∧
    (d.current_size ≠ d.capacity → d.grow_if_full = (.ok (), d)) := by
  by_cases hfull : d.current_size = d.capacity
  · obtain ⟨_, _, h3, h4, h5, h6, h7, h8⟩ := h.expand hfull
    have e : d.grow_if_full = d.expand_blockmap := by simp [Deque.grow_if_full, hfull]
    rw [e]
    exact ⟨h5, h6, fun _ => ⟨rfl, h3, h4, h7, h8⟩, fun hne => absurd hfull hne⟩
  · have e : d.grow_if_full = (.ok (), d) := by simp [Deque.grow_if_full, hfull]
    rw [e]
    exact ⟨rfl, rfl, fun hf => absurd hf hfull, fun _ => rfl⟩

/-- The state `push_back` leaves: the state after the growth step with one
slot written, the back cursor advanced and the size incremented. -/
theorem Holds.push_back_eq {d : Deque} {xs : List Int} (h : Holds d xs) (v : Int) :
    ∃ m', write_slot d.grow_if_full.2.blockmap d.grow_if_full.2.block_size
        d.grow_if_full.2.back_index v = .ok m' ∧
      d.push_back v = (.ok (), { d.grow_if_full.2 with
        blockmap := m'
        back_index := (d.grow_if_full.2.back_index + 1) % d.grow_if_full.2.capacity
        current_size := d.grow_if_full.2.current_size + 1 }) := by
  obtain ⟨hr, h1, _⟩ := h.grow_if_full
  rcases hg : d.grow_if_full with ⟨r, d1⟩
  rw [hg] at hr h1
  simp only at hr h1
  subst hr
  have hcap := h1.capacity_pos
  obtain ⟨m', hw, _, _, _⟩ :=
    h1.shaped.write_slot_ok h1.block_size_pos (s := d1.back_index)
      (by rw [← h1.capacity_eq]; exact h1.back_lt) v
  refine ⟨m', hw, ?_⟩
  simp [Deque.push_back, hg, hw, size_mod_of_pos (show 0 < d1.capacity by omega)]

/-- The state `push_front` leaves: the state after the growth step with the
front cursor moved one step back, one slot written and the size incremented. -/
theorem Holds.push_front_eq {d : Deque} {xs : List Int} (h : Holds d xs) (v : Int) :
    ∃ m', write_slot d.grow_if_full.2.blockmap d.grow_if_full.2.block_size
        (if d.grow_if_full.2.front_index = 0 then d.grow_if_full.2.capacity - 1
          else d.grow_if_full.2.front_index - 1) v = .ok m' ∧
      d.push_front v = (.ok (), { d.grow_if_full.2 with
        blockmap := m'
        front_index := if d.grow_if_full.2.front_index = 0 then d.grow_if_full.2.capacity - 1
          else d.grow_if_full.2.front_index - 1
        current_size := d.grow_if_full.2.current_size + 1 }) := by
  obtain ⟨hr, h1, _⟩ := h.grow_if_full
  rcases hg : d.grow_if_full with ⟨r, d1⟩
  rw [hg] at hr h1
  simp only at hr h1
  subst hr
  have hcap := h1.capacity_pos
  have hc0 : 0 < d1.capacity := by omega
  have hflt := step_back_lt hc0 h1.front_lt
  obtain ⟨m', hw, _, _, _⟩ :=
    h1.shaped.write_slot_ok h1.block_size_pos
      (s := if d1.front_index = 0 then d1.capacity - 1 else d1.front_index - 1)
      (by rw [← h1.capacity_eq]; exact hflt) v
  refine ⟨m', hw, ?_⟩
  simp only [Deque.push_front, hg, step_back_eq hc0, hw]

/-- The state an in-range indexed write leaves: one slot written, nothing else. -/
theorem Holds.subscript_write_eq {d : Deque} {xs : List Int} (h : Holds d xs) {i : Nat}
    (hi : i < d.current_size) (v : Int) :
    ∃ m', write_slot d.blockmap d.block_size ((d.front_index + i) % d.capacity) v = .ok m' ∧
      d.subscript_write i v = (.ok (), { d with blockmap := m' }) := by
  obtain ⟨m', hw, _, _, _⟩ := h.shaped.write_slot_ok h.block_size_pos (h.slot_lt i) v
  refine ⟨m', hw, ?_⟩
  simp [Deque.subscript_write, h.subscript_of_lt hi, hw]

theorem seq_at_set_self {xs : List Int} {i : Nat} (hi : i < xs.length) (v : Int) :
    seq_at (xs.set i v) i = .ok v := by
  simp [seq_at, List.getElem?_set, hi]

theorem seq_at_set_ne {xs : List Int} {i j : Nat} (hij : i ≠ j) (v : Int) :
    seq_at (xs.set i v) j = seq_at xs j := by
  simp [seq_at, List.getElem?_set, hij]

/-- C11: on a reachable deque, assigning `v` through `operator[](i)` for an
`i` below `size()` succeeds, makes `operator[](i)` return `v`, keeps the value of
`operator[](j)` at every other index `j` below `size()`, whose slot is a
different one, and keeps the size, the capacity, the block count and both
cursors. -/
theorem subscript_write_updates_one_element (d : Deque) (hd : Reachable d) (i : Nat)
    (hi : i < d.size) (v : Int) :
    (d.subscript_write i v).1 = .ok () ∧
    ((d.subscript_write i v).2.subscript_read i).1 = .ok v ∧
    (∀ j, j < d.size → j ≠ i →
      (d.subscript j).1 ≠ (d.subscript i).1 ∧
      ∃ x, (d.subscript_read j).1 = .ok x ∧
        ((d.subscript_write i v).2.subscript_read j).1 = .ok x) ∧
    (d.subscript_write i v).2.size = d.size ∧
    (d.subscript_write i v).2.capacity = d.capacity ∧
    (d.subscript_write i v).2.num_blocks = d.num_blocks ∧
    (d.subscript_write i v).2.block_size = d.block_size ∧
    (d.subscript_write i v).2.front_index = d.front_index ∧
    (d.subscript_write i v).2.back_index = d.back_index := by
  obtain ⟨xs, h⟩ := hd.holds
  have h2 := h.subscript_write i v
  have hlen : i < xs.length := by rw [← h.size_eq]; exact hi
  obtain ⟨m', _, he⟩ := h.subscript_write_eq hi v
  refine ⟨by rw [he], ?_, ?_, by rw [he]; rfl, by rw [he], by rw [he], by rw [he],
    by rw [he], by rw [he]⟩
  · rw [h2.subscript_read_eq, seq_at_set_self hlen]
  · intro j hj hji
    have hjlen : j < xs.length := by rw [← h.size_eq]; exact hj
    have hcap := h.size_le
    refine ⟨?_, xs[j], by rw [h.subscript_read_eq, seq_at_ok hjlen], ?_⟩
    · rw [h.subscript_of_lt hj, h.subscript_of_lt hi]
      intro hc
      exact wrap_ne h.front_lt (show j < d.capacity by simp only [Deque.size] at hj; omega)
        (show i < d.capacity by simp only [Deque.size] at hi; omega) hji (Except.ok.inj hc)
    · rw [h2.subscript_read_eq, seq_at_set_ne (Ne.symm hji), seq_at_ok hjlen]

theorem subscript_write_updates_one_element_witness :
    Reachable sample_wrapped ∧ 2 < sample_wrapped.size ∧
    (sample_wrapped.subscript_write 2 9).1 = .ok () ∧
    ((sample_wrapped.subscript_write 2 9).2.subscript_read 2).1 = .ok 9 ∧
    (sample_wrapped.subscript_write 2 9).2.front_index = sample_wrapped.front_index :=
  ⟨sample_wrapped_reachable, by decide,
    (subscript_write_updates_one_element sample_wrapped sample_wrapped_reachable 2
      (by decide) 9).1,
    (subscript_write_updates_one_element sample_wrapped sample_wrapped_reachable 2
      (by decide) 9).2.1,
    (subscript_write_updates_one_element sample_wrapped sample_wrapped_reachable 2
      (by decide) 9).2.2.2.2.2.2.2.1⟩

theorem counting_succ (n : Nat) : counting (n + 1) = counting n ++ [(n : Int)] := rfl

theorem counting_length (n : Nat) : (counting n).length = n := by
  induction n with
  | zero => rfl
  | succ n ih => rw [counting_succ, List.length_append, ih]; rfl

theorem push_loop_holds (n : Nat) :
    ∀ (i : Nat) (d : Deque), Holds d (counting i) → Holds (push_loop n i d) (counting (i + n)) := by
  induction n with
  | zero => intro i d h; exact h
  | succ n ih =>
    intro i d h
    have h1 := (h.push_back (i : Int)).2
    rw [← counting_succ] at h1
    have := ih (i + 1) _ h1
    rw [show i + (n + 1) = i + 1 + n by omega]
    exact this

theorem drain_loop_spec (n : Nat) :
    ∀ d : Deque, Holds d (counting n) →
      (drain_loop n d).1 = drain_expected n ∧ (drain_loop n d).2.empty = true := by
  induction n with
  | zero =>
    intro d h
    refine ⟨rfl, ?_⟩
    have := h.size_eq
    simpa [drain_loop, Deque.empty, counting] using this
  | succ n ih =>
    intro d h
    have hne : d.current_size ≠ 0 := by rw [h.size_eq, counting_length]; omega
    obtain ⟨h1, h2, _⟩ := h.pop_back hne
    rw [counting_succ, List.dropLast_concat] at h2
    obtain ⟨ih1, ih2⟩ := ih _ h2
    have hb : d.back.1 = .ok (n : Int) := by
      rw [h.back_eq_seq, counting_succ, seq_end_append_self]
    refine ⟨?_, ih2⟩
    show (d.back.1, d.pop_back.1) :: (drain_loop n d.pop_back.2).1 = _
    rw [hb, h1, ih1]
    rfl

/-- C12: for every `n`, pushing 0, 1, ..., n - 1 at the back of a fresh deque
gives `size() == n`; draining it then observes, for the counter going from n - 1
down to 0, `back()` returning the counter and `pop_back()` succeeding; and the
deque is empty after the n pops. -/
theorem fill_and_drain (n : Nat) :
    (push_loop n 0 Deque.new).size = n ∧
    (drain_loop n (push_loop n 0 Deque.new)).1 = drain_expected n ∧
    (drain_loop n (push_loop n 0 Deque.new)).2.empty = true := by
  have h := push_loop_holds n 0 Deque.new Holds.new
  rw [Nat.zero_add] at h
  refine ⟨?_, drain_loop_spec n _ h⟩
  show (push_loop n 0 Deque.new).current_size = n
  rw [h.size_eq, counting_length]

theorem Holds.push_back_fields {d : Deque} {xs : List Int} (h : Holds d xs) (v : Int) :
    (d.push_back v).2.block_size = d.block_size ∧
    (d.push_back v).2.current_size = d.current_size + 1 ∧
    (d.current_size = d.capacity →
      (d.push_back v).2.num_blocks = d.num_blocks + 1 ∧
      (d.push_back v).2.capacity = d.capacity + d.block_size) ∧
    (d.current_size ≠ d.capacity →
      (d.push_back v).2.num_blocks = d.num_blocks ∧
      (d.push_back v).2.capacity = d.capacity) := by
  obtain ⟨m', _, he⟩ := h.push_back_eq v
  obtain ⟨g1, g2, g3, g4⟩ := h.grow_if_full_fields
  rw [he]
  refine ⟨g1, by show d.grow_if_full.2.current_size + 1 = _; rw [g2], ?_, ?_⟩
  · intro hf
    obtain ⟨_, a, b, _, _⟩ := g3 hf
    exact ⟨a, b⟩
  · intro hf
    show d.grow_if_full.2.num_blocks = _ ∧ d.grow_if_full.2.capacity = _
    rw [g4 hf]
    exact ⟨rfl, rfl⟩

theorem Holds.push_front_fields {d : Deque} {xs : List Int} (h : Holds d xs) (v : Int) :
    (d.push_front v).2.block_size = d.block_size ∧
    (d.push_front v).2.current_size = d.current_size + 1 ∧
    (d.current_size = d.capacity →
      (d.push_front v).2.num_blocks = d.num_blocks + 1 ∧
      (d.push_front v).2.capacity = d.capacity + d.block_size) ∧
    (d.current_size ≠ d.capacity →
      (d.push_front v).2.num_blocks = d.num_blocks ∧
      (d.push_front v).2.capacity = d.capacity) := by
  obtain ⟨m', _, he⟩ := h.push_front_eq v
  obtain ⟨g1, g2, g3, g4⟩ := h.grow_if_full_fields
  rw [he]
  refine ⟨g1, by show d.grow_if_full.2.current_size + 1 = _; rw [g2], ?_, ?_⟩
  · intro hf
    obtain ⟨_, a, b, _, _⟩ := g3 hf
    exact ⟨a, b⟩
  · intro hf
    show d.grow_if_full.2.num_blocks = _ ∧ d.grow_if_full.2.capacity = _
    rw [g4 hf]
    exact ⟨rfl, rfl⟩

theorem cadence_step {nb cap n bs nb' cap' : Nat} (hbs : bs = 4)
    (hc : nb = max 1 ((n + 3) / 4) ∧ cap = 4 * nb) (hle : n ≤ cap)
    (hfull : n = cap → nb' = nb + 1 ∧ cap' = cap + bs)
    (hroom : n ≠ cap → nb' = nb ∧ cap' = cap) :
    nb' = max 1 ((n + 1 + 3) / 4) ∧ cap' = 4 * nb' := by
  obtain ⟨h1, h2⟩ := hc
  subst hbs
  rw [Nat.max_def] at h1 ⊢
  by_cases hf : n = cap
  · obtain ⟨a, b⟩ := hfull hf
    split at h1 <;> split <;> omega
  · obtain ⟨a, b⟩ := hroom hf
    split at h1 <;> split <;> omega

theorem perform_push_cadence (s : Deque × List Int) (op : Operation) (h : Holds s.1 s.2)
    (hc : Cadence s.1) (hp : is_push op = true) :
    Cadence (perform_operation s op).1 ∧
      (perform_operation s op).1.current_size = s.1.current_size + 1 := by
  cases op with
  | push_front v =>
    obtain ⟨f1, f2, f3, f4⟩ := h.push_front_fields v
    refine ⟨?_, f2⟩
    show _ = max 1 (((s.1.push_front v).2.current_size + 3) / 4) ∧ _
    rw [f2]
    exact cadence_step h.block_size_eq hc h.size_le f3 f4
  | push_back v =>
    obtain ⟨f1, f2, f3, f4⟩ := h.push_back_fields v
    refine ⟨?_, f2⟩
    show _ = max 1 (((s.1.push_back v).2.current_size + 3) / 4) ∧ _
    rw [f2]
    exact cadence_step h.block_size_eq hc h.size_le f3 f4
  | pop_front => cases hp
  | pop_back => cases hp

theorem foldl_push_cadence (ops : List Operation) :
    ∀ s : Deque × List Int, Holds s.1 s.2 → Cadence s.1 →
      (∀ op ∈ ops, is_push op = true) →
      Cadence (ops.foldl perform_operation s).1 ∧
        (ops.foldl perform_operation s).1.current_size = s.1.current_size + ops.length := by
  induction ops with
  | nil => intro s _ hc _; exact ⟨hc, rfl⟩
  | cons op ops ih =>
    intro s h hc hp
    have hop := hp op (List.mem_cons_self _ _)
    obtain ⟨c1, c2⟩ := perform_push_cadence s op h hc hop
    obtain ⟨r1, r2⟩ := ih _ (perform_operation_holds s op h) c1
      (fun o ho => hp o (List.mem_cons_of_mem _ ho))
    refine ⟨r1, ?_⟩
    rw [List.foldl_cons, r2, c2, List.length_cons]
    omega

/-- C13: after any `n` pushes (push_front and push_back in any mix, no pop) on
a fresh deque, `size()` is `n`, the block count is `max(1, ceil(n / 4))`, written
`max 1 ((n + 3) / 4)`, and the capacity is 4 times the block count; after
push_back of 10, 20, 30, 40, 50 the size is 5, the capacity has grown from 4 to 8,
one block more, and `operator[]` returns 10, 20, 30, 40, 50 at 0..4. -/
theorem growth_cadence (ops : List Operation) (hp : ∀ op ∈ ops, is_push op = true) :
    ((run_operations ops).1.size = ops.length ∧
      (run_operations ops).1.num_blocks = max 1 ((ops.length + 3) / 4) ∧
      (run_operations ops).1.capacity = 4 * (run_operations ops).1.num_blocks) ∧
    (Deque.new.capacity = 4 ∧ Deque.new.num_blocks = 1 ∧
      sample_growth.size = 5 ∧ sample_growth.capacity = 8 ∧ sample_growth.num_blocks = 2 ∧
      (sample_growth.subscript_read 0).1 = .ok 10 ∧
      (sample_growth.subscript_read 1).1 = .ok 20 ∧
      (sample_growth.subscript_read 2).1 = .ok 30 ∧
      (sample_growth.subscript_read 3).1 = .ok 40 ∧
      (sample_growth.subscript_read 4).1 = .ok 50) := by
  refine ⟨?_, rfl, rfl, rfl, rfl, rfl, rfl, rfl, rfl, rfl, rfl⟩
  obtain ⟨⟨c1, c2⟩, hsz⟩ := foldl_push_cadence ops (Deque.new, []) Holds.new ⟨rfl, rfl⟩ hp
  have hsz' : (run_operations ops).1.current_size = ops.length := by
    rw [run_operations, hsz]
    show 0 + ops.length = ops.length
    omega
  refine ⟨hsz', ?_, c2⟩
  rw [← hsz']
  exact c1

theorem growth_cadence_witness :
    (run_operations [.push_front 1, .push_back 2, .push_front 3, .push_front 4, .push_back 5,
      .push_back 6, .push_front 7, .push_front 8, .push_back 9]).1.size = 9 ∧
    (run_operations [.push_front 1, .push_back 2, .push_front 3, .push_front 4, .push_back 5,
      .push_back 6, .push_front 7, .push_front 8, .push_back 9]).1.num_blocks = 3 ∧
    (run_operations [.push_front 1, .push_back 2, .push_front 3, .push_front 4, .push_back 5,
      .push_back 6, .push_front 7, .push_front 8, .push_back 9]).1.capacity = 12 :=
  ⟨(growth_cadence _ (by decide)).1.1, (growth_cadence _ (by decide)).1.2.1,
    (growth_cadence _ (by decide)).1.2.2⟩

/-- C14: the constructor gives one block of 4 slots, `block_size == 4`,
`capacity == block_size == 4`, `current_size == 0` and both cursors at 0, so
`empty()` is true and `size()` is 0; and on every state `empty()` is true exactly
when `size()` is 0. -/
theorem construction_and_empty :
    (Deque.new.blockmap.length = 1 ∧ (∀ blk ∈ Deque.new.blockmap, blk.length = 4) ∧
      Deque.new.num_blocks = 1 ∧ Deque.new.block_size = 4 ∧ Deque.new.capacity = 4 ∧
      Deque.new.capacity = Deque.new.block_size ∧ Deque.new.current_size = 0 ∧
      Deque.new.front_index = 0 ∧ Deque.new.back_index = 0 ∧
      Deque.new.empty = true ∧ Deque.new.size = 0) ∧
    ∀ d : Deque, d.empty = true ↔ d.size = 0 := by
  refine ⟨⟨rfl, ?_, rfl, rfl, rfl, rfl, rfl, rfl, rfl, rfl, rfl⟩, ?_⟩
  · intro blk hblk
    simp only [Deque.new, List.mem_singleton] at hblk
    rw [hblk]
    rfl
  · intro d
    simp [Deque.empty, Deque.size]

theorem cursors_meet_iff {c f n : Nat} (hf : f < c) (hn : n ≤ c) :
    f = (f + n) % c ↔ n = 0 ∨ n = c := by
  have h1 := mod_wrap (f + n) c (by omega)
  omega

/-- C15: in every reachable state, and in the state a triggered growth leaves,
`back_index == (front_index + current_size) % capacity`; so the two cursors are
equal exactly when the deque is empty or full. -/
theorem cursor_invariant (d : Deque) (hd : Reachable d) :
    d.back_index = (d.front_index + d.current_size) % d.capacity ∧
    (d.front_index = d.back_index ↔ d.current_size = 0 ∨ d.current_size = d.capacity) ∧
    (d.current_size = d.capacity →
      d.expand_blockmap.2.back_index =
        (d.expand_blockmap.2.front_index + d.expand_blockmap.2.current_size) %
          d.expand_blockmap.2.capacity) := by
  obtain ⟨xs, h⟩ := hd.holds
  refine ⟨h.back_eq, ?_, fun hfull => (h.expand hfull).2.1.back_eq⟩
  rw [h.back_eq]
  exact cursors_meet_iff h.front_lt h.size_le

theorem cursor_invariant_witness :
    Reachable sample_wrapped ∧
    sample_wrapped.back_index =
      (sample_wrapped.front_index + sample_wrapped.current_size) % sample_wrapped.capacity ∧
    (sample_wrapped.front_index = sample_wrapped.back_index ↔
      sample_wrapped.current_size = 0 ∨ sample_wrapped.current_size = sample_wrapped.capacity) :=
  ⟨sample_wrapped_reachable, (cursor_invariant sample_wrapped sample_wrapped_reachable).1,
    (cursor_invariant sample_wrapped sample_wrapped_reachable).2.1⟩

theorem Holds.structural {d : Deque} {xs : List Int} (h : Holds d xs) : Structural d :=
  ⟨h.block_size_eq, h.num_blocks_pos, h.capacity_eq, by have := h.capacity_pos; omega,
    h.size_le, h.front_lt, h.back_lt⟩

theorem expand_blockmap_cases (d : Deque) :
    (∃ e, d.expand_blockmap = (.error e, d)) ∨
    ∃ m, d.expand_blockmap = (.ok (), { d with
      blockmap := m
      num_blocks := d.num_blocks + 1
      capacity := d.capacity + d.block_size
      front_index := 0
      back_index := d.current_size }) := by
  rcases hr : Deque.remap d.blockmap d.block_size d.capacity d.current_size 0 d.front_index
    (List.replicate (d.num_blocks + 1) (List.replicate d.block_size (0 : Int))) with e | m
  · exact Or.inl ⟨e, by simp only [Deque.expand_blockmap, hr]⟩
  · exact Or.inr ⟨m, by simp only [Deque.expand_blockmap, hr]⟩

theorem Structural.preserved_expand_blockmap {d : Deque} (h : Structural d) :
    Structural d.expand_blockmap.2 := by
  rcases expand_blockmap_cases d with ⟨e, he⟩ | ⟨m, he⟩
  · rw [he]; exact h
  · rw [he]
    obtain ⟨h1, h2, h3, h4, h5, h6, h7⟩ := h
    refine ⟨h1, ?_, ?_, ?_, ?_, ?_, ?_⟩
    · show 1 ≤ d.num_blocks + 1; omega
    · show d.capacity + d.block_size = (d.num_blocks + 1) * d.block_size
      rw [h3, Nat.add_mul, Nat.one_mul]
    · show d.capacity + d.block_size ≠ 0; omega
    · show d.current_size ≤ d.capacity + d.block_size; omega
    · show 0 < d.capacity + d.block_size; omega
    · show d.current_size < d.capacity + d.block_size; omega

theorem Structural.preserved_grow_if_full {d : Deque} (h : Structural d) :
    Structural d.grow_if_full.2 ∧
      (d.grow_if_full.1 = .ok () → d.grow_if_full.2.current_size < d.grow_if_full.2.capacity) := by
  unfold Deque.grow_if_full
  by_cases hfull : d.current_size = d.capacity
  · rw [if_pos hfull]
    refine ⟨h.preserved_expand_blockmap, ?_⟩
    rcases expand_blockmap_cases d with ⟨e, he⟩ | ⟨m, he⟩
    · rw [he]; intro hc; cases hc
    · rw [he]
      intro _
      obtain ⟨h1, _⟩ := h
      show d.current_size < d.capacity + d.block_size
      omega
  · rw [if_neg hfull]
    have h5 := h.2.2.2.2.1
    exact ⟨h, fun _ => by show d.current_size < d.capacity; omega⟩

theorem Structural.preserved_push_back {d : Deque} (h : Structural d) (v : Int) :
    Structural (d.push_back v).2 := by
  obtain ⟨hs, hlt⟩ := h.preserved_grow_if_full
  unfold Deque.push_back
  rcases hg : d.grow_if_full with ⟨r, d1⟩
  rw [hg] at hs hlt
  simp only at hs hlt
  cases r with
  | error e => exact hs
  | ok u =>
    cases u
    have hlt := hlt rfl
    obtain ⟨h1, h2, h3, h4, h5, h6, h7⟩ := hs
    simp only
    split
    · exact ⟨h1, h2, h3, h4, h5, h6, h7⟩
    · rw [size_mod_of_pos (Nat.pos_of_ne_zero h4)]
      exact ⟨h1, h2, h3, h4, hlt, h6, Nat.mod_lt _ (Nat.pos_of_ne_zero h4)⟩

theorem Structural.preserved_push_front {d : Deque} (h : Structural d) (v : Int) :
    Structural (d.push_front v).2 := by
  obtain ⟨hs, hlt⟩ := h.preserved_grow_if_full
  unfold Deque.push_front
  rcases hg : d.grow_if_full with ⟨r, d1⟩
  rw [hg] at hs hlt
  simp only at hs hlt
  cases r with
  | error e => exact hs
  | ok u =>
    cases u
    have hlt := hlt rfl
    obtain ⟨h1, h2, h3, h4, h5, h6, h7⟩ := hs
    have hc0 := Nat.pos_of_ne_zero h4
    have hf := step_back_lt hc0 h6
    simp only [step_back_eq hc0]
    split
    · exact ⟨h1, h2, h3, h4, h5, hf, h7⟩
    · exact ⟨h1, h2, h3, h4, hlt, hf, h7⟩

theorem Structural.preserved_pop_front {d : Deque} (h : Structural d) : Structural d.pop_front.2 := by
  obtain ⟨h1, h2, h3, h4, h5, h6, h7⟩ := h
  have hc0 := Nat.pos_of_ne_zero h4
  unfold Deque.pop_front
  split
  · exact ⟨h1, h2, h3, h4, h5, h6, h7⟩
  · next hne =>
    have hn : d.current_size ≠ 0 := by simpa [Deque.empty] using hne
    rw [size_mod_of_pos hc0]
    refine ⟨h1, h2, h3, h4, ?_, Nat.mod_lt _ hc0, h7⟩
    show size_sub d.current_size 1 ≤ d.capacity
    rw [size_sub_of_le (by omega)]
    omega

theorem Structural.preserved_pop_back {d : Deque} (h : Structural d) : Structural d.pop_back.2 := by
  obtain ⟨h1, h2, h3, h4, h5, h6, h7⟩ := h
  have hc0 := Nat.pos_of_ne_zero h4
  unfold Deque.pop_back
  split
  · exact ⟨h1, h2, h3, h4, h5, h6, h7⟩
  · next hne =>
    have hn : d.current_size ≠ 0 := by simpa [Deque.empty] using hne
    refine ⟨h1, h2, h3, h4, ?_, h6, ?_⟩
    · show size_sub d.current_size 1 ≤ d.capacity
      rw [size_sub_of_le (by omega)]
      omega
    · show (if d.back_index = 0 then size_sub d.capacity 1 else size_sub d.back_index 1) <
        d.capacity
      rw [step_back_eq hc0]
      exact step_back_lt hc0 h7

theorem subscript_state (d : Deque) (i : Nat) : (d.subscript i).2 = d := by
  unfold Deque.subscript
  repeat' split
  all_goals rfl

theorem Structural.preserved_subscript_write {d : Deque} (h : Structural d) (i : Nat) (v : Int) :
    Structural (d.subscript_write i v).2 := by
  have hst := subscript_state d i
  unfold Deque.subscript_write
  rcases hs : d.subscript i with ⟨r, d1⟩
  rw [hs] at hst
  simp only at hst
  subst hst
  cases r with
  | error e => exact h
  | ok a =>
    simp only
    split
    · exact h
    · exact h

theorem front_state (d : Deque) : d.front.2 = d := by
  unfold Deque.front
  split <;> rfl

theorem back_state (d : Deque) : d.back.2 = d := by
  unfold Deque.back
  split <;> rfl

/-- C16: every reachable state has `block_size == 4`, `num_blocks >= 1`,
`capacity == num_blocks * block_size`, a non-zero capacity,
`current_size <= capacity` and both cursors below the capacity; and every public
member and `expand_blockmap` lead from a state with these properties to a state
with these properties. -/
theorem structural_invariant (d : Deque) :
    (Reachable d → Structural d) ∧
    (Structural d →
      Structural d.expand_blockmap.2 ∧
      (∀ v, Structural (d.push_front v).2) ∧
      (∀ v, Structural (d.push_back v).2) ∧
      Structural d.pop_front.2 ∧
      Structural d.pop_back.2 ∧
      (∀ i v, Structural (d.subscript_write i v).2) ∧
      Structural d.front.2 ∧
      Structural d.back.2 ∧
      (∀ i, Structural (d.subscript i).2)) := by
  refine ⟨?_, ?_⟩
  · intro hd
    obtain ⟨xs, h⟩ := hd.holds
    exact h.structural
  · intro h
    refine ⟨h.preserved_expand_blockmap, h.preserved_push_front, h.preserved_push_back,
      h.preserved_pop_front, h.preserved_pop_back, h.preserved_subscript_write, ?_, ?_, ?_⟩
    · rw [front_state]; exact h
    · rw [back_state]; exact h
    · intro i; rw [subscript_state]; exact h

theorem structural_invariant_witness :
    Reachable sample_full ∧ Structural sample_full ∧
    Structural sample_full.expand_blockmap.2 ∧ Structural (sample_full.push_front 5).2 :=
  ⟨sample_full_reachable,
    (structural_invariant sample_full).1 sample_full_reachable,
    ((structural_invariant sample_full).2
      ((structural_invariant sample_full).1 sample_full_reachable)).1,
    ((structural_invariant sample_full).2
      ((structural_invariant sample_full).1 sample_full_reachable)).2.1 5⟩

/-- C17: on a reachable full deque `expand_blockmap` succeeds and leaves one
block more, the capacity larger by `block_size`, the same `block_size` and
`current_size`, `front_index == 0` and `back_index == current_size`, which is the
old capacity; and the `k`-th live element, read from old slot
`(front_index + k) % capacity`, is at new slot `k`, that is at block
`k / block_size`, offset `k % block_size`, for every `k < current_size`. -/
theorem expand_blockmap_renormalises (d : Deque) (hd : Reachable d)
    (hfull : d.current_size = d.capacity) :
    d.expand_blockmap.1 = .ok () ∧
    d.expand_blockmap.2.num_blocks = d.num_blocks + 1 ∧
    d.expand_blockmap.2.capacity = d.capacity + d.block_size ∧
    d.expand_blockmap.2.block_size = d.block_size ∧
    d.expand_blockmap.2.current_size = d.current_size ∧
    d.expand_blockmap.2.front_index = 0 ∧
    d.expand_blockmap.2.back_index = d.expand_blockmap.2.current_size ∧
    d.expand_blockmap.2.back_index = d.capacity ∧
    ∀ k, k < d.current_size →
      ∃ x, read_slot d.blockmap d.block_size ((d.front_index + k) % d.capacity) = .ok x ∧
        read_slot d.expand_blockmap.2.blockmap d.expand_blockmap.2.block_size k = .ok x ∧
        load d.expand_blockmap.2.blockmap (k / d.block_size) (k % d.block_size) = some x := by
  obtain ⟨xs, h⟩ := hd.holds
  obtain ⟨h1, h2, h3, h4, h5, h6, h7, h8⟩ := h.expand hfull
  refine ⟨h1, h3, h4, h5, h6, h7, by rw [h8, h6], by rw [h8, hfull], ?_⟩
  intro k hk
  have hlen : k < xs.length := by rw [← h.size_eq]; exact hk
  have hkx : xs[k]? = some xs[k] := List.getElem?_eq_getElem hlen
  have hnew := h2.elems k _ hkx
  rw [h7, Nat.zero_add, h4, Nat.mod_eq_of_lt (by have := h.block_size_pos; omega)] at hnew
  refine ⟨xs[k], h.elems k _ hkx, hnew, ?_⟩
  rw [h5] at hnew
  exact (read_slot_load hnew).2

theorem expand_blockmap_renormalises_witness :
    Reachable sample_full ∧ sample_full.current_size = sample_full.capacity ∧
    sample_full.expand_blockmap.1 = .ok () ∧
    sample_full.expand_blockmap.2.num_blocks = sample_full.num_blocks + 1 ∧
    sample_full.expand_blockmap.2.front_index = 0 ∧
    sample_full.expand_blockmap.2.back_index = sample_full.capacity :=
  ⟨sample_full_reachable, by decide,
    (expand_blockmap_renormalises sample_full sample_full_reachable (by decide)).1,
    (expand_blockmap_renormalises sample_full sample_full_reachable (by decide)).2.1,
    (expand_blockmap_renormalises sample_full sample_full_reachable (by decide)).2.2.2.2.2.1,
    (expand_blockmap_renormalises sample_full sample_full_reachable
      (by decide)).2.2.2.2.2.2.2.1⟩

theorem write_slot_load {m m' : List (List Int)} {bs s : Nat} {v : Int}
    (h : write_slot m bs s v = .ok m') (b o : Nat) :
    load m' b o = if b = s / bs ∧ o = s % bs then some v else load m b o := by
  unfold write_slot at h
  by_cases hbs : bs = 0
  · simp [hbs] at h
  · rw [if_neg hbs] at h
    cases hst : store m (s / bs) (s % bs) v with
    | none => simp [hst] at h
    | some m1 =>
      simp only [hst, Except.ok.injEq] at h
      subst h
      unfold store at hst
      cases hb : m[s / bs]? with
      | none => simp [hb] at hst
      | some blk =>
        simp only [hb] at hst
        by_cases ho : s % bs < blk.length
        · rw [if_pos ho] at hst
          cases hst
          exact load_set m _ _ v blk hb ho b o
        · simp [ho] at hst

/-- C18: on a reachable deque a push changes the block count, and the
capacity, exactly when `current_size == capacity` before it; the block count then
grows by 1 and the capacity by `block_size`. When `current_size < capacity` both
are kept and the push stores into one physical slot, the one of `back_index` for
push_back and of the stepped-back `front_index` for push_front, which then holds
`v`, every other physical slot keeping its content. -/
theorem growth_trigger (d : Deque) (hd : Reachable d) (v : Int) :
    (((d.push_back v).2.num_blocks ≠ d.num_blocks ↔ d.current_size = d.capacity) ∧
      ((d.push_back v).2.capacity ≠ d.capacity ↔ d.current_size = d.capacity) ∧
      (d.current_size = d.capacity →
        (d.push_back v).2.num_blocks = d.num_blocks + 1 ∧
        (d.push_back v).2.capacity = d.capacity + d.block_size) ∧
      (d.current_size < d.capacity →
        (d.push_back v).2.num_blocks = d.num_blocks ∧
        (d.push_back v).2.capacity = d.capacity ∧
        d.back_index / d.block_size < d.num_blocks ∧
        d.back_index % d.block_size < d.block_size ∧
        ∀ b o, load (d.push_back v).2.blockmap b o =
          if b = d.back_index / d.block_size ∧ o = d.back_index % d.block_size then some v
          else load d.blockmap b o)) ∧
    (((d.push_front v).2.num_blocks ≠ d.num_blocks ↔ d.current_size = d.capacity) ∧
      ((d.push_front v).2.capacity ≠ d.capacity ↔ d.current_size = d.capacity) ∧
      (d.current_size = d.capacity →
        (d.push_front v).2.num_blocks = d.num_blocks + 1 ∧
        (d.push_front v).2.capacity = d.capacity + d.block_size) ∧
      (d.current_size < d.capacity →
        (d.push_front v).2.num_blocks = d.num_blocks ∧
        (d.push_front v).2.capacity = d.capacity ∧
        (d.push_front v).2.front_index / d.block_size < d.num_blocks ∧
        (d.push_front v).2.front_index % d.block_size < d.block_size ∧
        (d.push_front v).2.front_index =
          (if d.front_index = 0 then d.capacity - 1 else d.front_index - 1) ∧
        ∀ b o, load (d.push_front v).2.blockmap b o =
          if b = (d.push_front v).2.front_index / d.block_size ∧
            o = (d.push_front v).2.front_index % d.block_size then some v
          else load d.blockmap b o)) := by
  obtain ⟨xs, h⟩ := hd.holds
  have hbs := h.block_size_pos
  have hc0 : 0 < d.capacity := by have := h.capacity_pos; omega
  obtain ⟨_, _, _, g4⟩ := h.grow_if_full_fields
  refine ⟨?_, ?_⟩
  · obtain ⟨_, _, f3, f4⟩ := h.push_back_fields v
    refine ⟨?_, ?_, f3, ?_⟩
    · by_cases hf : d.current_size = d.capacity
      · have := (f3 hf).1; simp only [hf, iff_true]; omega
      · have := (f4 hf).1; simp only [hf, iff_false]; omega
    · by_cases hf : d.current_size = d.capacity
      · have := (f3 hf).2; simp only [hf, iff_true]; omega
      · have := (f4 hf).2; simp only [hf, iff_false]; omega
    · intro hlt
      have hne : d.current_size ≠ d.capacity := by omega
      obtain ⟨m', hw, he⟩ := h.push_back_eq v
      rw [g4 hne] at hw he
      simp only at hw
      obtain ⟨c1, c2⟩ := slot_coords hbs (by rw [← h.capacity_eq]; exact h.back_lt)
      refine ⟨(f4 hne).1, (f4 hne).2, c1, c2, ?_⟩
      rw [he]
      exact write_slot_load hw
  · obtain ⟨_, _, f3, f4⟩ := h.push_front_fields v
    refine ⟨?_, ?_, f3, ?_⟩
    · by_cases hf : d.current_size = d.capacity
      · have := (f3 hf).1; simp only [hf, iff_true]; omega
      · have := (f4 hf).1; simp only [hf, iff_false]; omega
    · by_cases hf : d.current_size = d.capacity
      · have := (f3 hf).2; simp only [hf, iff_true]; omega
      · have := (f4 hf).2; simp only [hf, iff_false]; omega
    · intro hlt
      have hne : d.current_size ≠ d.capacity := by omega
      obtain ⟨m', hw, he⟩ := h.push_front_eq v
      rw [g4 hne] at hw he
      simp only at hw
      obtain ⟨c1, c2⟩ := slot_coords hbs (s := if d.front_index = 0 then d.capacity - 1
        else d.front_index - 1)
        (by rw [← h.capacity_eq]; exact step_back_lt hc0 h.front_lt)
      refine ⟨(f4 hne).1, (f4 hne).2, ?_⟩
      rw [he]
      exact ⟨c1, c2, rfl, write_slot_load hw⟩

theorem growth_trigger_witness :
    Reachable sample_three ∧ sample_three.current_size < sample_three.capacity ∧
    (sample_three.push_back 7).2.num_blocks = sample_three.num_blocks ∧
    (sample_three.push_back 7).2.capacity = sample_three.capacity ∧
    (sample_three.push_front 7).2.num_blocks = sample_three.num_blocks :=
  ⟨sample_three_reachable, by decide,
    ((growth_trigger sample_three sample_three_reachable 7).1.2.2.2 (by decide)).1,
    ((growth_trigger sample_three sample_three_reachable 7).1.2.2.2 (by decide)).2.1,
    ((growth_trigger sample_three sample_three_reachable 7).2.2.2.2 (by decide)).1⟩

theorem Reachable.step {d d' : Deque} (hd : Reachable d) (hs : Step d d') : Reachable d' := by
  cases hs with
  | push_front v => exact .push_front v hd
  | push_back v => exact .push_back v hd
  | pop_front => exact .pop_front hd
  | pop_back => exact .pop_back hd
  | subscript_write i v => exact .subscript_write i v hd

theorem Holds.step_mono {d d' : Deque} {xs : List Int} (h : Holds d xs) (hs : Step d d') :
    d.num_blocks ≤ d'.num_blocks ∧ d.capacity ≤ d'.capacity := by
  cases hs with
  | push_front v =>
    obtain ⟨_, _, f3, f4⟩ := h.push_front_fields v
    by_cases hf : d.current_size = d.capacity
    · have := f3 hf; omega
    · have := f4 hf; omega
  | push_back v =>
    obtain ⟨_, _, f3, f4⟩ := h.push_back_fields v
    by_cases hf : d.current_size = d.capacity
    · have := f3 hf; omega
    · have := f4 hf; omega
  | pop_front =>
    by_cases hn : d.current_size = 0
    · rw [pop_front_of_empty d hn]; exact ⟨Nat.le_refl _, Nat.le_refl _⟩
    · rw [(h.pop_front hn).2.2]; exact ⟨Nat.le_refl _, Nat.le_refl _⟩
  | pop_back =>
    by_cases hn : d.current_size = 0
    · rw [pop_back_of_empty d hn]; exact ⟨Nat.le_refl _, Nat.le_refl _⟩
    · rw [(h.pop_back hn).2.2]; exact ⟨Nat.le_refl _, Nat.le_refl _⟩
  | subscript_write i v =>
    by_cases hi : i < d.current_size
    · obtain ⟨m', _, he⟩ := h.subscript_write_eq hi v
      rw [he]; exact ⟨Nat.le_refl _, Nat.le_refl _⟩
    · rw [subscript_write_of_ge d (by omega)]; exact ⟨Nat.le_refl _, Nat.le_refl _⟩

theorem Reachable.steps_mono {d d' : Deque} (hd : Reachable d)
    (hs : Relation.ReflTransGen Step d d') :
    Reachable d' ∧ d.num_blocks ≤ d'.num_blocks ∧ d.capacity ≤ d'.capacity := by
  induction hs with
  | refl => exact ⟨hd, Nat.le_refl _, Nat.le_refl _⟩
  | tail _ hstep ih =>
    obtain ⟨hr, h1, h2⟩ := ih
    obtain ⟨xs, h⟩ := hr.holds
    obtain ⟨m1, m2⟩ := h.step_mono hstep
    exact ⟨hr.step hstep, Nat.le_trans h1 m1, Nat.le_trans h2 m2⟩

/-- C19: on a reachable non-empty deque `pop_front()` succeeds and changes only
`front_index` and `current_size`, and `pop_back()` succeeds and changes only
`back_index` and `current_size`: the blockmap, so every physical slot, and
`num_blocks`, `block_size`, `capacity` and the other cursor are kept. Hence along
any sequence of calls of the public members from a reachable state `num_blocks`
and `capacity` never decrease. -/
theorem pops_keep_storage (d : Deque) (hd : Reachable d) :
    (d.size ≠ 0 →
      (d.pop_front.1 = .ok () ∧
        d.pop_front.2 = { d with
          front_index := (d.front_index + 1) % d.capacity
          current_size := d.current_size - 1 } ∧
        (∀ b o, load d.pop_front.2.blockmap b o = load d.blockmap b o) ∧
        d.pop_front.2.blockmap = d.blockmap ∧
        d.pop_front.2.num_blocks = d.num_blocks ∧
        d.pop_front.2.block_size = d.block_size ∧
        d.pop_front.2.capacity = d.capacity ∧
        d.pop_front.2.back_index = d.back_index) ∧
      (d.pop_back.1 = .ok () ∧
        d.pop_back.2 = { d with
          back_index := if d.back_index = 0 then d.capacity - 1 else d.back_index - 1
          current_size := d.current_size - 1 } ∧
        (∀ b o, load d.pop_back.2.blockmap b o = load d.blockmap b o) ∧
        d.pop_back.2.blockmap = d.blockmap ∧
        d.pop_back.2.num_blocks = d.num_blocks ∧
        d.pop_back.2.block_size = d.block_size ∧
        d.pop_back.2.capacity = d.capacity ∧
        d.pop_back.2.front_index = d.front_index)) ∧
    (∀ d', Relation.ReflTransGen Step d d' →
      d.num_blocks ≤ d'.num_blocks ∧ d.capacity ≤ d'.capacity) := by
  obtain ⟨xs, h⟩ := hd.holds
  refine ⟨?_, fun d' hs => (hd.steps_mono hs).2⟩
  intro hne
  obtain ⟨a1, _, a3⟩ := h.pop_front hne
  obtain ⟨b1, _, b3⟩ := h.pop_back hne
  refine ⟨⟨a1, a3, ?_, ?_, ?_, ?_, ?_, ?_⟩, ⟨b1, b3, ?_, ?_, ?_, ?_, ?_, ?_⟩⟩
  · intro b o; rw [a3]
  · rw [a3]
  · rw [a3]
  · rw [a3]
  · rw [a3]
  · rw [a3]
  · intro b o; rw [b3]
  · rw [b3]
  · rw [b3]
  · rw [b3]
  · rw [b3]
  · rw [b3]

theorem pops_keep_storage_witness :
    Reachable sample_wrapped ∧ sample_wrapped.size ≠ 0 ∧
    sample_wrapped.pop_front.2.blockmap = sample_wrapped.blockmap ∧
    sample_wrapped.pop_back.2.blockmap = sample_wrapped.blockmap ∧
    sample_wrapped.num_blocks ≤ (sample_wrapped.pop_back.2.push_front 3).2.num_blocks :=
  ⟨sample_wrapped_reachable, by decide,
    ((pops_keep_storage sample_wrapped sample_wrapped_reachable).1 (by decide)).1.2.2.2.1,
    ((pops_keep_storage sample_wrapped sample_wrapped_reachable).1 (by decide)).2.2.2.2.1,
    ((pops_keep_storage sample_wrapped sample_wrapped_reachable).2 _
      (.tail (.tail .refl (.pop_back _)) (.push_front _ 3))).1⟩

theorem Holds.in_block {d : Deque} {xs : List Int} (h : Holds d xs) {s : Nat}
    (hs : s < d.capacity) : in_block d.num_blocks d.block_size s :=
  slot_coords h.block_size_pos (by rw [← h.capacity_eq]; exact hs)

theorem seq_end_ne_fault (xs : List Int) (i : Nat) : seq_end xs i ≠ .error .fault := by
  unfold seq_end
  split <;> simp

theorem seq_at_ne_fault (xs : List Int) (i : Nat) : seq_at xs i ≠ .error .fault := by
  unfold seq_at
  split <;> simp

/-- C20: in a reachable state no member divides by zero (`block_size` and
`capacity` are positive, also after the growth step of a push), no subtraction
`capacity - 1`, `index - 1` or `--current_size` wraps, the blockmap has
`num_blocks` blocks of `block_size` slots, every slot that push_front, push_back,
front, back, `operator[]` below `size()` and `expand_blockmap` read or write lies
inside the blockmap accessed, and no member takes the fault branch. -/
theorem access_safety (d : Deque) (hd : Reachable d) (v : Int) (i : Nat) :
    (0 < d.block_size ∧ 0 < d.capacity ∧
      0 < d.grow_if_full.2.block_size ∧ 0 < d.grow_if_full.2.capacity) ∧
    ((if d.grow_if_full.2.front_index = 0 then 1 ≤ d.grow_if_full.2.capacity
        else 1 ≤ d.grow_if_full.2.front_index) ∧
      (if d.back_index = 0 then 1 ≤ d.capacity else 1 ≤ d.back_index) ∧
      (d.empty = false → 1 ≤ d.current_size)) ∧
    (Shaped d.blockmap d.num_blocks d.block_size ∧
      Shaped d.grow_if_full.2.blockmap d.grow_if_full.2.num_blocks d.grow_if_full.2.block_size) ∧
    (in_block d.grow_if_full.2.num_blocks d.grow_if_full.2.block_size
        (if d.grow_if_full.2.front_index = 0 then size_sub d.grow_if_full.2.capacity 1
          else size_sub d.grow_if_full.2.front_index 1) ∧
      in_block d.grow_if_full.2.num_blocks d.grow_if_full.2.block_size
        d.grow_if_full.2.back_index ∧
      (d.empty = false → in_block d.num_blocks d.block_size d.front_index) ∧
      (d.empty = false → in_block d.num_blocks d.block_size
        (if d.back_index = 0 then size_sub d.capacity 1 else size_sub d.back_index 1)) ∧
      (i < d.size → in_block d.num_blocks d.block_size ((d.front_index + i) % d.capacity)) ∧
      (d.current_size = d.capacity →
        Shaped d.expand_blockmap.2.blockmap (d.num_blocks + 1) d.block_size ∧
        ∀ k, k < d.current_size →
          in_block d.num_blocks d.block_size ((d.front_index + k) % d.capacity) ∧
          in_block (d.num_blocks + 1) d.block_size k)) ∧
    ((d.push_front v).1 ≠ .error .fault ∧ (d.push_back v).1 ≠ .error .fault ∧
      d.pop_front.1 ≠ .error .fault ∧ d.pop_back.1 ≠ .error .fault ∧
      d.front.1 ≠ .error .fault ∧ d.back.1 ≠ .error .fault ∧
      (d.subscript i).1 ≠ .error .fault ∧ (d.subscript_read i).1 ≠ .error .fault ∧
      (d.subscript_write i v).1 ≠ .error .fault ∧
      (d.current_size = d.capacity → d.expand_blockmap.1 = .ok ())) := by
  obtain ⟨xs, h⟩ := hd.holds
  obtain ⟨_, h1, _⟩ := h.grow_if_full
  have hc := h.capacity_pos
  have hc1 := h1.capacity_pos
  have hc0 : 0 < d.capacity := by omega
  have hc10 : 0 < d.grow_if_full.2.capacity := by omega
  have hemp : d.empty = false → 1 ≤ d.current_size := by
    intro he
    have : d.current_size ≠ 0 := by simpa [Deque.empty] using he
    omega
  refine ⟨⟨h.block_size_pos, hc0, h1.block_size_pos, hc10⟩, ⟨?_, ?_, hemp⟩,
    ⟨h.shaped, h1.shaped⟩, ⟨?_, h1.in_block h1.back_lt, fun _ => h.in_block h.front_lt,
      ?_, fun _ => h.in_block (Nat.mod_lt _ hc0), ?_⟩, ?_⟩
  · split <;> omega
  · split <;> omega
  · rw [step_back_eq hc10]
    exact h1.in_block (step_back_lt hc10 h1.front_lt)
  · intro _
    rw [step_back_eq hc0]
    exact h.in_block (step_back_lt hc0 h.back_lt)
  · intro hfull
    obtain ⟨_, h2, h3, _, h5, _, _, _⟩ := h.expand hfull
    have hsh := h2.shaped
    rw [h3, h5] at hsh
    refine ⟨hsh, fun k hk => ⟨h.in_block (Nat.mod_lt _ hc0), ?_⟩⟩
    refine slot_coords h.block_size_pos ?_
    have := h.capacity_eq
    have := h.block_size_pos
    rw [Nat.add_mul]
    omega
  · refine ⟨?_, ?_, ?_, ?_, ?_, ?_, ?_, ?_, ?_, fun hfull => (h.expand hfull).1⟩
    · rw [(h.push_front v).1]; simp
    · rw [(h.push_back v).1]; simp
    · by_cases hn : d.current_size = 0
      · rw [pop_front_of_empty d hn]; simp
      · rw [(h.pop_front hn).1]; simp
    · by_cases hn : d.current_size = 0
      · rw [pop_back_of_empty d hn]; simp
      · rw [(h.pop_back hn).1]; simp
    · rw [h.front_eq]; exact seq_end_ne_fault _ _
    · rw [h.back_eq_seq]; exact seq_end_ne_fault _ _
    · by_cases hi : i < d.current_size
      · rw [h.subscript_of_lt hi]; simp
      · rw [subscript_of_ge d (by omega)]; simp
    · rw [h.subscript_read_eq]; exact seq_at_ne_fault _ _
    · by_cases hi : i < d.current_size
      · obtain ⟨m', _, he⟩ := h.subscript_write_eq hi v
        rw [he]; simp
      · rw [subscript_write_of_ge d (by omega)]; simp

theorem access_safety_witness :
    Reachable sample_full ∧
    0 < sample_full.block_size ∧ 0 < sample_full.capacity ∧
    (sample_full.push_front 5).1 ≠ .error .fault ∧
    (sample_full.push_back 5).1 ≠ .error .fault ∧
    (sample_full.subscript 3).1 ≠ .error .fault :=
  ⟨sample_full_reachable,
    (access_safety sample_full sample_full_reachable 5 3).1.1,
    (access_safety sample_full sample_full_reachable 5 3).1.2.1,
    (access_safety sample_full sample_full_reachable 5 3).2.2.2.2.1,
    (access_safety sample_full sample_full_reachable 5 3).2.2.2.2.2.1,
    (access_safety sample_full sample_full_reachable 5 3).2.2.2.2.2.2.2.2.2.2.1⟩

end DequeToolkit
